import Mathlib

/-!
Shallow embedding of the Gaussian-elimination solver from `src/matrix.rs` and
`src/error.rs` of the kryl_07 repository.

Modelling conventions:
* The generic scalar `T : Real` is instantiated with `ℚ` (exact field
  arithmetic with an absolute value, as the specification's "real
  numeric type" requires for exact reasoning).
* A `Matrix` mirrors the Rust struct: a list of rows plus the `rows`/`cols`
  fields.  Rust's panicking index operator is modelled by total indexing
  with default `0` (`Matrix.get`); claims about bounds are settled through
  explicit in-bounds predicates derived from the source's access pattern.
* Rust `usize` subtraction `self.cols - 1` in the shape guard of
  `gaussian_elimination` wraps modulo `2^64` in release builds; the guard is
  modelled with that wrap-around so that `cols = 0` inputs behave as the
  compiled program does.  Elsewhere (`cols - 1`, `rows - 1`) the quantities
  are only used where the surrounding claims guarantee they do not
  underflow, and truncated `ℕ` subtraction is used.
* Fallible operations return `Except CalculationError`, mirroring the Rust
  `Result`; the `?` operator becomes monadic bind via `List.foldlM`.
-/

namespace Kryl07

/-- Error kinds, from `src/error.rs` (`ErrorReason`). -/
inductive ErrorReason where
  | IncorrectSize : ErrorReason
  | UnableToCalculate : ErrorReason
deriving DecidableEq

/-- `CalculationError` from `src/error.rs`: a tagged failure carrying only its reason
(the human-readable message is a fixed function of the reason and is not modelled). -/
structure CalculationError where
  reason : ErrorReason
deriving DecidableEq

/-- `CalculationError::new` from `src/error.rs`. -/
def CalculationError.new (error_reason : ErrorReason) : CalculationError :=
  ⟨error_reason⟩

/-- The number of values of Rust's 64-bit `usize`; used to model wrapping
subtraction in the shape guard of `gaussian_elimination`. -/
def USIZE : ℕ := 2 ^ 64

/-- The `Matrix<T>` struct of `src/matrix.rs`, with `T = ℚ`:
backing storage `matrix` (a sequence of rows) plus the `rows` and `cols` fields. -/
structure Matrix where
  matrix : List (List ℚ)
  rows : ℕ
  cols : ℕ
deriving DecidableEq

/-- `EliminationResult<T>` from `src/matrix.rs`: solution vector and residual vector. -/
structure EliminationResult where
  result : Matrix
  epsilon : Matrix
deriving DecidableEq

namespace Matrix

/-- Reading `self[i][j]` (the `Index` impls of `src/matrix.rs`).  Rust panics out of
bounds; the model totalises with default `0`, and bounds are tracked separately. -/
def get (m : Matrix) (i j : ℕ) : ℚ :=
  (m.matrix.getD i []).getD j 0

/-- Writing `self[i][j] = v` (the `IndexMut` impl).  Out-of-bounds writes are
no-ops in the model (Rust panics; bounds are tracked separately). -/
def set (m : Matrix) (i j : ℕ) (v : ℚ) : Matrix :=
  { m with matrix := m.matrix.set i ((m.matrix.getD i []).set j v) }

/-- The struct invariant of `Matrix` stated in the spec (§3): `matrix` holds exactly
`rows` rows, each of length `cols`. -/
def wf (m : Matrix) : Prop :=
  m.matrix.length = m.rows ∧ ∀ r ∈ m.matrix, r.length = m.cols

instance (m : Matrix) : Decidable m.wf := by
  unfold wf; infer_instance

/-- `Matrix::new(rows, cols)` from `src/matrix.rs`: a zero-filled `rows × cols` matrix. -/
def new (rows cols : ℕ) : Matrix :=
  ⟨List.replicate rows (List.replicate cols 0), rows, cols⟩

/-- `Matrix::new_column_matrix(size)` from `src/matrix.rs`. -/
def new_column_matrix (size : ℕ) : Matrix :=
  new size 1

/-- The mutation performed by `Matrix::echelon` (lines 43–47 of `src/matrix.rs`)
once the pivot check has passed: for each column `c` in `row..self.rows + 1`,
`self[row_against + 1][c] -= factor * self[row][c]`, with
`factor = self[row_against + 1][row] / self[row][row]` computed once up front. -/
def echelon_run (m : Matrix) (row row_against : ℕ) : Matrix :=
  let factor := m.get (row_against + 1) row / m.get row row
  (List.range' row (m.rows + 1 - row)).foldl
    (fun acc c => acc.set (row_against + 1) c
      (acc.get (row_against + 1) c - factor * acc.get row c)) m

/-- `Matrix::echelon` from `src/matrix.rs` (lines 39–49): fails with
`UnableToCalculate` when the pivot `self[row][row]` is zero, otherwise performs
the row update `echelon_run`. -/
def echelon (m : Matrix) (row row_against : ℕ) : Except CalculationError Matrix :=
  if m.get row row = 0 then
    .error (CalculationError.new .UnableToCalculate)
  else
    .ok (m.echelon_run row row_against)

/-- The mutation performed by `Matrix::eliminate` (lines 55–61 of `src/matrix.rs`)
once the pivot check has passed: for `j = i, i-1, …, 1`, with
`factor = self[j-1][i] / self[i][i]` read from the current state, update
`self[j-1][k] -= factor * self[i][k]` for `k = self.rows, …, 0`. -/
def eliminate_run (m : Matrix) (i : ℕ) : Matrix :=
  ((List.range' 1 i).reverse).foldl
    (fun acc j =>
      let factor := acc.get (j - 1) i / acc.get i i
      ((List.range (acc.rows + 1)).reverse).foldl
        (fun a k => a.set (j - 1) k (a.get (j - 1) k - factor * a.get i k)) acc)
    m

/-- `Matrix::eliminate` from `src/matrix.rs` (lines 51–63): fails with
`UnableToCalculate` when the pivot `self[i][i]` is zero, otherwise performs
`eliminate_run`. -/
def eliminate (m : Matrix) (i : ℕ) : Except CalculationError Matrix :=
  if m.get i i = 0 then
    .error (CalculationError.new .UnableToCalculate)
  else
    .ok (m.eliminate_run i)

/-- `Matrix::calculate_right` from `src/matrix.rs` (lines 70–81): allocates a
`(cols - 1) × 1` matrix and, for each `row_idx` in `0..rows`, stores
`Σ_{k < calculated_result.rows} calculated_result[k][0] * self[row_idx][k]`
at `[row_idx][0]`. -/
def calculate_right (m calculated_result : Matrix) : Matrix :=
  (List.range m.rows).foldl
    (fun result row_idx =>
      result.set row_idx 0
        ((List.range calculated_result.rows).foldl
          (fun accumulator current_root_idx =>
            accumulator +
              calculated_result.get current_root_idx 0 * m.get row_idx current_root_idx)
          0))
    (new (m.cols - 1) 1)

/-- `Matrix::get_rhs` from `src/matrix.rs` (lines 82–88): the last column
(index `cols - 1`) as an `rows × 1` column matrix. -/
def get_rhs (m : Matrix) : Matrix :=
  (List.range m.rows).foldl
    (fun rhs i => rhs.set i 0 (m.get i (m.cols - 1)))
    (new_column_matrix m.rows)

/-- The `Clone` impl for `Matrix` (lines 190–199 of `src/matrix.rs`): a fresh
zero matrix of the same shape with every element copied over. -/
def clone (m : Matrix) : Matrix :=
  (List.range m.rows).foldl
    (fun acc row_idx =>
      (List.range m.cols).foldl
        (fun acc2 col_idx => acc2.set row_idx col_idx (m.get row_idx col_idx))
        acc)
    (new m.rows m.cols)

/-- The shape guard of the `SubAssign` impl (lines 162–167 of `src/matrix.rs`):
the Rust program aborts fatally when the operands' shapes differ. -/
def sub_assign_mismatch (m rhs : Matrix) : Prop :=
  m.cols ≠ rhs.cols ∨ m.rows ≠ rhs.rows

instance (m rhs : Matrix) : Decidable (m.sub_assign_mismatch rhs) := by
  unfold sub_assign_mismatch; infer_instance

/-- The elementwise loop of the `SubAssign` impl (lines 168–172 of
`src/matrix.rs`): `self[i][j] -= rhs[i][j]` for every `i < rows`, `j < cols`.
Meaningful when `¬ sub_assign_mismatch` (otherwise Rust aborts before the loop). -/
def sub_assign (m rhs : Matrix) : Matrix :=
  (List.range m.rows).foldl
    (fun acc row_idx =>
      (List.range m.cols).foldl
        (fun acc2 col_idx =>
          acc2.set row_idx col_idx (acc2.get row_idx col_idx - rhs.get row_idx col_idx))
        acc)
    m

/-- Phase 1 of `gaussian_elimination` (lines 96–100 of `src/matrix.rs`):
`for i in 0..rows-1 { for j in i..rows-1 { echelon(i, j)? } }`. -/
def forward_phase (m : Matrix) : Except CalculationError Matrix :=
  (List.range (m.rows - 1)).foldlM
    (fun acc i =>
      (List.range' i (m.rows - 1 - i)).foldlM (fun a j => a.echelon i j) acc)
    m

/-- Phase 2 of `gaussian_elimination` (lines 103–105 of `src/matrix.rs`):
`for i in (1..rows).rev() { eliminate(i)? }`. -/
def backward_phase (m : Matrix) : Except CalculationError Matrix :=
  ((List.range' 1 (m.rows - 1)).reverse).foldlM (fun a i => a.eliminate i) m

/-- Solution extraction of `gaussian_elimination` (lines 108–111 of
`src/matrix.rs`): `result[i][0] = matrix[i][self.rows] / matrix[i][i]` for each
`i` in `0..self.rows`, into a fresh `rows × 1` matrix. -/
def extract_result (self matrix : Matrix) : Matrix :=
  (List.range self.rows).foldl
    (fun res i => res.set i 0 (matrix.get i self.rows / matrix.get i i))
    (new self.rows 1)

/-- Residual computation of `gaussian_elimination` (lines 112–116 of
`src/matrix.rs`): `epsilon = self.get_rhs()`, then `epsilon -=
self.calculate_right(&result)`, then every entry is replaced by its absolute
value.  Note both `get_rhs` and `calculate_right` read the original `self`. -/
def residual (self result : Matrix) : Matrix :=
  let epsilon := self.get_rhs.sub_assign (self.calculate_right result)
  (List.range epsilon.rows).foldl
    (fun e idx => e.set idx 0 |e.get idx 0|) epsilon

/-- `Matrix::gaussian_elimination` from `src/matrix.rs` (lines 89–118).
The shape guard `self.cols - 1 != self.rows` uses Rust `usize` arithmetic,
modelled with wrapping subtraction modulo `2^64`.  All mutation happens on
`self.clone()`; the final `result`/`epsilon` construction mirrors lines
108–117 via `extract_result` and `residual`. -/
def gaussian_elimination (self : Matrix) : Except CalculationError EliminationResult :=
  if (self.cols + (USIZE - 1)) % USIZE ≠ self.rows then
    .error (CalculationError.new .IncorrectSize)
  else do
    let cloned_matrix := self.clone
    let m1 ← cloned_matrix.forward_phase
    let m2 ← m1.backward_phase
    let result := self.extract_result m2
    let epsilon := self.residual result
    return ⟨result, epsilon⟩

/-- State-passing view of the call `self.gaussian_elimination()`: the first
component is the caller's matrix after the call.  In the source every mutation
targets `cloned_matrix` (line 93), never the receiver, so the receiver is
returned unchanged. -/
def gaussian_elimination_call (self : Matrix) :
    Matrix × Except CalculationError EliminationResult :=
  (self, self.gaussian_elimination)

/-- The in-bounds condition of `calculate_right`, read off the source's access
pattern (lines 70–81 of `src/matrix.rs`): for every executed outer iteration
`row_idx < self.rows`, every executed inner iteration
`current_root_idx < calculated_result.rows` reads
`calculated_result[current_root_idx][0]` (needs a nonempty row, i.e.
`0 < calculated_result.cols`) and `self[row_idx][current_root_idx]` (needs
`current_root_idx < self.cols`), and the write `result[row_idx][0]` needs
`row_idx < self.cols - 1` (the allocated row count of `result`). -/
def calculate_right_in_bounds (m calculated_result : Matrix) : Prop :=
  ∀ i < m.rows,
    (∀ k < calculated_result.rows, 0 < calculated_result.cols ∧ k < m.cols) ∧
      i < m.cols - 1

instance (m cr : Matrix) : Decidable (m.calculate_right_in_bounds cr) := by
  unfold calculate_right_in_bounds; infer_instance

/-- Strict upper-triangularity used by the spec (§4.2, glossary): every entry
strictly below the main diagonal is zero.  (For `r ≥ rows` the model reads the
default `0`, so the unbounded form agrees with the spec's bounded one on
well-formed matrices.) -/
def lower_zero (m : Matrix) : Prop :=
  ∀ r c : ℕ, c < r → m.get r c = 0

/-- Invariant maintained by phase 1 after the passes for pivots `0..i-1`:
all entries strictly below the diagonal in columns `< i` vanish, and the
pivots `0..i-1` are nonzero. -/
def fwd_inv (a : Matrix) (i : ℕ) : Prop :=
  (∀ c < i, ∀ r, c < r → a.get r c = 0) ∧ (∀ d < i, a.get d d ≠ 0)

/-! ### Basic lemmas about `get`, `set`, `new` -/

theorem rows_set (m : Matrix) (i j : ℕ) (v : ℚ) : (m.set i j v).rows = m.rows := rfl

theorem cols_set (m : Matrix) (i j : ℕ) (v : ℚ) : (m.set i j v).cols = m.cols := rfl

theorem get_def (m : Matrix) (i j : ℕ) :
    m.get i j = (m.matrix[i]?.getD [])[j]?.getD 0 := by
  simp [get]

theorem set_of_length_le (m : Matrix) (i j : ℕ) (v : ℚ)
    (h : m.matrix.length ≤ i) : m.set i j v = m := by
  unfold set
  rw [List.set_eq_of_length_le h]

theorem wf_set (m : Matrix) (i j : ℕ) (v : ℚ) (hw : m.wf) : (m.set i j v).wf := by
  rcases lt_or_le i m.matrix.length with hi | hi
  · obtain ⟨hlen, hrow⟩ := hw
    refine ⟨by simpa [set] using hlen, ?_⟩
    intro r hr
    simp only [set] at hr
    rcases List.mem_or_eq_of_mem_set hr with h | h
    · exact hrow r h
    · subst h
      rw [List.length_set, List.getD_eq_getElem?_getD, List.getElem?_eq_getElem hi,
        Option.getD_some]
      exact hrow _ (List.getElem_mem hi)
  · rw [set_of_length_le m i j v hi]
    exact hw

theorem rows_new (r c : ℕ) : (new r c).rows = r := rfl

theorem cols_new (r c : ℕ) : (new r c).cols = c := rfl

theorem wf_new (r c : ℕ) : (new r c).wf := by
  refine ⟨by simp [new], ?_⟩
  intro row hrow
  simp only [new, List.mem_replicate] at hrow
  rw [hrow.2]
  simp [new]

theorem get_new (r c i j : ℕ) : (new r c).get i j = 0 := by
  rw [get_def]
  show ((List.replicate r (List.replicate c (0 : ℚ)))[i]?.getD [])[j]?.getD 0 = 0
  rw [List.getElem?_replicate]
  split_ifs with hi
  · rw [Option.getD_some, List.getElem?_replicate]
    split_ifs with hj <;> rfl
  · rfl

theorem get_of_rows_le (m : Matrix) (r c : ℕ) (hw : m.wf) (h : m.rows ≤ r) :
    m.get r c = 0 := by
  rw [get_def]
  have hnone : m.matrix[r]? = none := List.getElem?_eq_none (by rw [hw.1]; exact h)
  rw [hnone]
  rfl

theorem row_length (m : Matrix) (i : ℕ) (hw : m.wf) (hi : i < m.rows) :
    (m.matrix.getD i []).length = m.cols := by
  have hi' : i < m.matrix.length := by rw [hw.1]; exact hi
  rw [List.getD_eq_getElem?_getD, List.getElem?_eq_getElem hi', Option.getD_some]
  exact hw.2 _ (List.getElem_mem hi')

theorem get_set_self (m : Matrix) (i j : ℕ) (v : ℚ) (hw : m.wf)
    (hi : i < m.rows) (hj : j < m.cols) : (m.set i j v).get i j = v := by
  have hi' : i < m.matrix.length := by rw [hw.1]; exact hi
  have hj' : j < (m.matrix.getD i []).length := by
    rw [row_length m i hw hi]; exact hj
  rw [get_def]
  show ((m.matrix.set i ((m.matrix.getD i []).set j v))[i]?.getD [])[j]?.getD 0 = v
  rw [List.getElem?_set_self hi', Option.getD_some,
    List.getElem?_set_self hj', Option.getD_some]

theorem get_set_ne (m : Matrix) (i j r c : ℕ) (v : ℚ) (h : i ≠ r ∨ j ≠ c) :
    (m.set i j v).get r c = m.get r c := by
  rw [get_def, get_def]
  show ((m.matrix.set i ((m.matrix.getD i []).set j v))[r]?.getD [])[c]?.getD 0
    = (m.matrix[r]?.getD [])[c]?.getD 0
  by_cases hir : i = r
  · subst hir
    have hj : j ≠ c := h.resolve_left (by simp)
    rcases lt_or_le i m.matrix.length with hi | hi
    · rw [List.getElem?_set_self hi, Option.getD_some,
        List.getElem?_set_ne hj, List.getElem?_eq_getElem hi, Option.getD_some,
        List.getD_eq_getElem?_getD, List.getElem?_eq_getElem hi, Option.getD_some]
    · rw [List.set_eq_of_length_le hi]
  · rw [List.getElem?_set_ne hir]

/-- Extensionality: two well-formed matrices of the same shape whose entries
agree are equal. -/
theorem ext_of_get (m₁ m₂ : Matrix) (hw₁ : m₁.wf) (hw₂ : m₂.wf)
    (hr : m₁.rows = m₂.rows) (hc : m₁.cols = m₂.cols)
    (h : ∀ i < m₁.rows, ∀ j < m₁.cols, m₁.get i j = m₂.get i j) : m₁ = m₂ := by
  obtain ⟨hl₁, hrow₁⟩ := hw₁
  obtain ⟨hl₂, hrow₂⟩ := hw₂
  have hlen : m₁.matrix.length = m₂.matrix.length := by rw [hl₁, hl₂, hr]
  have hmat : m₁.matrix = m₂.matrix := by
    apply List.ext_getElem hlen
    intro i hi₁ hi₂
    apply List.ext_getElem
      (by rw [hrow₁ _ (List.getElem_mem hi₁), hrow₂ _ (List.getElem_mem hi₂), hc])
    intro j hj₁ hj₂
    have hi : i < m₁.rows := by rw [← hl₁]; exact hi₁
    have hj : j < m₁.cols := by rw [← hrow₁ _ (List.getElem_mem hi₁)]; exact hj₁
    have hh := h i hi j hj
    rw [get_def, get_def, List.getElem?_eq_getElem hi₁, List.getElem?_eq_getElem hi₂,
      Option.getD_some, Option.getD_some, List.getElem?_eq_getElem hj₁,
      List.getElem?_eq_getElem hj₂, Option.getD_some, Option.getD_some] at hh
    exact hh
  obtain ⟨l₁, r₁, c₁⟩ := m₁
  obtain ⟨l₂, r₂, c₂⟩ := m₂
  simp only at hmat hr hc
  rw [hmat, hr, hc]

/-! ### Generic fold machinery -/

theorem foldl_preserve {β : Type} (P : Matrix → Prop) (f : Matrix → β → Matrix)
    (l : List β) (m : Matrix) (h0 : P m) (hstep : ∀ a b, P a → P (f a b)) :
    P (l.foldl f m) := by
  induction l generalizing m with
  | nil => exact h0
  | cons b t ih => exact ih _ (hstep _ _ h0)

theorem except_ok_bind {α β : Type} (x : α) (f : α → Except CalculationError β) :
    (Except.ok x >>= f : Except CalculationError β) = f x := rfl

theorem except_error_bind {α β : Type} (e : CalculationError)
    (f : α → Except CalculationError β) :
    (Except.error e >>= f : Except CalculationError β) = .error e := rfl

theorem foldlM_except_nil {β : Type} (f : Matrix → β → Except CalculationError Matrix)
    (m : Matrix) : ([] : List β).foldlM f m = .ok m := rfl

theorem foldlM_except_cons {β : Type} (f : Matrix → β → Except CalculationError Matrix)
    (b : β) (l : List β) (m : Matrix) :
    (b :: l).foldlM f m = f m b >>= fun x => l.foldlM f x := by
  rw [List.foldlM_cons]

theorem foldlM_ok_preserve {β : Type} (P : Matrix → Prop)
    (f : Matrix → β → Except CalculationError Matrix)
    (hstep : ∀ a b x, f a b = .ok x → P a → P x) :
    ∀ (l : List β) (m res : Matrix), l.foldlM f m = .ok res → P m → P res := by
  intro l
  induction l with
  | nil =>
    intro m res h hm
    rw [foldlM_except_nil] at h
    cases h
    exact hm
  | cons b t ih =>
    intro m res h hm
    rw [foldlM_except_cons] at h
    cases hf : f m b with
    | error e =>
      rw [hf, except_error_bind] at h
      exact Except.noConfusion h
    | ok x =>
      rw [hf, except_ok_bind] at h
      exact ih _ _ h (hstep _ _ _ hf hm)

/-- The core pointwise description of a left fold that performs one `set` per
position of a duplicate-free list of in-range positions, where each written
value is a function of the position and the entry currently stored there. -/
theorem get_foldl_set_pairs (F : Matrix → ℕ × ℕ → Matrix) (ψ : ℕ × ℕ → ℚ → ℚ)
    (hF : ∀ a p, F a p = a.set p.1 p.2 (ψ p (a.get p.1 p.2)))
    (l : List (ℕ × ℕ)) (m : Matrix)
    (hw : m.wf) (hnd : l.Nodup) (hb : ∀ p ∈ l, p.1 < m.rows ∧ p.2 < m.cols)
    (r c : ℕ) :
    (l.foldl F m).get r c
      = if (r, c) ∈ l then ψ (r, c) (m.get r c) else m.get r c := by
  induction l generalizing m with
  | nil => simp
  | cons p t ih =>
    have hp := hb p (List.mem_cons_self p t)
    have hm' : (m.set p.1 p.2 (ψ p (m.get p.1 p.2))).wf := m.wf_set _ _ _ hw
    have hb' : ∀ q ∈ t, q.1 < (m.set p.1 p.2 (ψ p (m.get p.1 p.2))).rows ∧
        q.2 < (m.set p.1 p.2 (ψ p (m.get p.1 p.2))).cols := by
      intro q hq
      rw [Matrix.rows_set, Matrix.cols_set]
      exact hb q (List.mem_cons_of_mem p hq)
    rw [List.foldl_cons, hF, ih _ hm' (List.Nodup.of_cons hnd) hb']
    by_cases hrc : (r, c) = p
    · subst hrc
      rw [if_neg (List.nodup_cons.mp hnd).1, if_pos (List.mem_cons_self _ t)]
      exact m.get_set_self r c _ hw hp.1 hp.2
    · have hne : p.1 ≠ r ∨ p.2 ≠ c := by
        by_contra hcon
        push_neg at hcon
        exact hrc (by rw [← hcon.1, ← hcon.2])
      rw [m.get_set_ne _ _ _ _ _ hne]
      by_cases hmem : (r, c) ∈ t
      · rw [if_pos hmem, if_pos (List.mem_cons_of_mem p hmem)]
      · rw [if_neg hmem, if_neg (by
          intro hx
          rcases List.mem_cons.mp hx with h | h
          · exact hrc h
          · exact hmem h)]

/-- Shape and well-formedness preservation for any fold whose steps are
single `set`s. -/
theorem shape_wf_foldl {β : Type} (F : Matrix → β → Matrix)
    (hF : ∀ a b, ∃ i j v, F a b = a.set i j v) (l : List β) (m : Matrix) :
    (l.foldl F m).rows = m.rows ∧ (l.foldl F m).cols = m.cols ∧
      (m.wf → (l.foldl F m).wf) := by
  apply foldl_preserve (fun a => a.rows = m.rows ∧ a.cols = m.cols ∧ (m.wf → a.wf))
  · exact ⟨rfl, rfl, fun h => h⟩
  · intro a b ha
    obtain ⟨i, j, v, he⟩ := hF a b
    rw [he]
    exact ⟨ha.1, ha.2.1, fun hw => wf_set _ _ _ _ (ha.2.2 hw)⟩

/-- A nested row-then-column fold of per-entry `set`s equals the flat fold over
the corresponding list of row/column pairs. -/
theorem foldl_foldl_eq_foldl_pairs (f : Matrix → ℕ × ℕ → Matrix)
    (rs cs : List ℕ) (m : Matrix) :
    rs.foldl (fun a i => cs.foldl (fun b j => f b (i, j)) a) m
      = (rs.flatMap (fun i => cs.map (fun j => (i, j)))).foldl f m := by
  induction rs generalizing m with
  | nil => simp
  | cons i t ih =>
    rw [List.foldl_cons, List.flatMap_cons, List.foldl_append, List.foldl_map, ih]

/-- The rectangular index set used by the nested folds, with its membership
and `Nodup` facts. -/
theorem mem_pairs_iff (n k : ℕ) (r c : ℕ) :
    (r, c) ∈ (List.range n).flatMap (fun i => (List.range k).map (fun j => (i, j)))
      ↔ r < n ∧ c < k := by
  simp only [List.mem_flatMap, List.mem_map, List.mem_range, Prod.mk.injEq]
  constructor
  · rintro ⟨a, ha, j, hj, h1, h2⟩
    exact ⟨h1 ▸ ha, h2 ▸ hj⟩
  · rintro ⟨h1, h2⟩
    exact ⟨r, h1, c, h2, rfl, rfl⟩

theorem nodup_pairs (n k : ℕ) :
    ((List.range n).flatMap (fun i => (List.range k).map (fun j => (i, j)))).Nodup := by
  rw [List.nodup_flatMap]
  constructor
  · intro i _
    exact (List.nodup_range k).map (fun a b hab => by simpa using congrArg Prod.snd hab)
  · apply List.Pairwise.imp ?_ (List.nodup_range n)
    intro a b hab p hpa hpb
    simp only [List.mem_map, List.mem_range] at hpa hpb
    obtain ⟨j₁, _, h₁⟩ := hpa
    obtain ⟨j₂, _, h₂⟩ := hpb
    rw [← h₁] at h₂
    exact hab (congrArg Prod.fst h₂).symm

theorem mem_col_pairs_iff (n r c : ℕ) :
    (r, c) ∈ (List.range n).map (fun i => (i, 0)) ↔ r < n ∧ c = 0 := by
  simp only [List.mem_map, List.mem_range, Prod.mk.injEq]
  constructor
  · rintro ⟨a, ha, h1, h2⟩
    exact ⟨h1 ▸ ha, h2.symm⟩
  · rintro ⟨h1, h2⟩
    exact ⟨r, h1, rfl, h2.symm⟩

theorem nodup_col_pairs (n : ℕ) : ((List.range n).map (fun i => (i, 0))).Nodup :=
  (List.nodup_range n).map (fun a b hab => by simpa using congrArg Prod.fst hab)

/-- Pointwise description of a fold over `List.range n` that writes column `0`
of row `i` at step `i`. -/
theorem get_foldl_set_col (F : Matrix → ℕ → Matrix) (ψ : ℕ → ℚ → ℚ)
    (hF : ∀ a i, F a i = a.set i 0 (ψ i (a.get i 0)))
    (n : ℕ) (m : Matrix) (hw : m.wf) (hb : n ≤ m.rows) (h0 : 0 < m.cols)
    (r c : ℕ) :
    ((List.range n).foldl F m).get r c
      = if r < n ∧ c = 0 then ψ r (m.get r c) else m.get r c := by
  have main : ∀ N, N ≤ m.rows → ((List.range N).foldl F m).get r c
      = if r < N ∧ c = 0 then ψ r (m.get r c) else m.get r c := by
    intro N
    induction N with
    | zero => intro _; simp
    | succ k ih =>
      intro hbk
      have hshape := shape_wf_foldl F (fun a b => ⟨b, 0, ψ b (a.get b 0), hF a b⟩)
        (List.range k) m
      have hwk : ((List.range k).foldl F m).wf := hshape.2.2 hw
      have ihk := ih (Nat.le_of_succ_le hbk)
      rw [List.range_succ, List.foldl_append, List.foldl_cons, List.foldl_nil, hF]
      by_cases hc : c = 0
      · subst hc
        by_cases hr : r = k
        · subst hr
          rw [get_set_self _ _ _ _ hwk (by rw [hshape.1]; exact hbk)
              (by rw [hshape.2.1]; exact h0)]
          have hprev : ((List.range r).foldl F m).get r 0 = m.get r 0 := by
            rw [ihk, if_neg (by simp)]
          rw [hprev, if_pos ⟨Nat.lt_succ_self r, rfl⟩]
        · rw [get_set_ne _ _ _ _ _ _ (Or.inl (fun hh => hr hh.symm)), ihk]
          by_cases hrk : r < k
          · rw [if_pos ⟨hrk, rfl⟩, if_pos ⟨Nat.lt_succ_of_lt hrk, rfl⟩]
          · rw [if_neg (by intro hx; exact hrk hx.1),
              if_neg (by
                intro hx
                rcases Nat.lt_succ_iff_lt_or_eq.mp hx.1 with hlt | heq
                · exact hrk hlt
                · exact hr heq)]
      · rw [get_set_ne _ _ _ _ _ _ (Or.inr (fun hh => hc hh.symm)), ihk,
          if_neg (by intro hx; exact hc hx.2), if_neg (by intro hx; exact hc hx.2)]
  exact main n hb

/-- Pointwise description of a nested fold over `List.range nr × List.range nc`
that writes entry `(i, j)` exactly once. -/
theorem get_foldl_set_rect (G : Matrix → ℕ × ℕ → Matrix) (ψ : ℕ × ℕ → ℚ → ℚ)
    (hG : ∀ a p, G a p = a.set p.1 p.2 (ψ p (a.get p.1 p.2)))
    (nr nc : ℕ) (m : Matrix) (hw : m.wf) (hbr : nr ≤ m.rows) (hbc : nc ≤ m.cols)
    (r c : ℕ) :
    ((List.range nr).foldl
        (fun a i => (List.range nc).foldl (fun b j => G b (i, j)) a) m).get r c
      = if r < nr ∧ c < nc then ψ (r, c) (m.get r c) else m.get r c := by
  rw [foldl_foldl_eq_foldl_pairs]
  have h := get_foldl_set_pairs G ψ hG
    ((List.range nr).flatMap (fun i => (List.range nc).map (fun j => (i, j)))) m hw
    (nodup_pairs nr nc)
    (fun p hp => by
      have hm : p.1 < nr ∧ p.2 < nc := by
        have := (mem_pairs_iff nr nc p.1 p.2).mp (by simpa using hp)
        exact this
      exact ⟨lt_of_lt_of_le hm.1 hbr, lt_of_lt_of_le hm.2 hbc⟩) r c
  simp only [mem_pairs_iff] at h
  exact h

theorem foldl_add_eq_sum (g : ℕ → ℚ) (n : ℕ) :
    (List.range n).foldl (fun acc k => acc + g k) 0 = ∑ k ∈ Finset.range n, g k := by
  suffices h : ∀ x : ℚ, (List.range n).foldl (fun acc k => acc + g k) x
      = x + ∑ k ∈ Finset.range n, g k by
    rw [h 0, zero_add]
  induction n with
  | zero => intro x; simp
  | succ k ih =>
    intro x
    rw [List.range_succ, List.foldl_append, ih, Finset.sum_range_succ, List.foldl_cons,
      List.foldl_nil, add_assoc]

/-! ### Characterisations of the concrete matrix operations -/

theorem clone_shape (m : Matrix) :
    m.clone.rows = m.rows ∧ m.clone.cols = m.cols ∧ m.clone.wf := by
  unfold clone
  refine foldl_preserve (fun a => a.rows = m.rows ∧ a.cols = m.cols ∧ a.wf)
    _ _ _ ⟨rfl, rfl, wf_new _ _⟩ ?_
  intro a b ha
  refine foldl_preserve (fun a => a.rows = m.rows ∧ a.cols = m.cols ∧ a.wf)
    _ _ _ ha ?_
  intro a2 b2 h2
  exact ⟨h2.1, h2.2.1, wf_set _ _ _ _ h2.2.2⟩

theorem get_clone (m : Matrix) (r c : ℕ) :
    m.clone.get r c = if r < m.rows ∧ c < m.cols then m.get r c else 0 := by
  have h := get_foldl_set_rect (fun b p => b.set p.1 p.2 (m.get p.1 p.2))
    (fun p _ => m.get p.1 p.2) (fun a p => rfl) m.rows m.cols (new m.rows m.cols)
    (wf_new _ _) le_rfl le_rfl r c
  rw [get_new] at h
  exact h

/-- The `Clone` impl produces a matrix equal (as a value) to its receiver:
a genuine deep copy. -/
theorem clone_eq_self (m : Matrix) (hw : m.wf) : m.clone = m := by
  obtain ⟨hr, hc, hwc⟩ := m.clone_shape
  apply ext_of_get _ _ hwc hw hr hc
  intro i hi j hj
  rw [hr] at hi
  rw [hc] at hj
  rw [get_clone, if_pos ⟨hi, hj⟩]

theorem sub_assign_shape (a b : Matrix) :
    (a.sub_assign b).rows = a.rows ∧ (a.sub_assign b).cols = a.cols ∧
      (a.wf → (a.sub_assign b).wf) := by
  unfold sub_assign
  refine foldl_preserve (fun x => x.rows = a.rows ∧ x.cols = a.cols ∧ (a.wf → x.wf))
    _ _ _ ⟨rfl, rfl, fun h => h⟩ ?_
  intro x i hx
  refine foldl_preserve (fun x => x.rows = a.rows ∧ x.cols = a.cols ∧ (a.wf → x.wf))
    _ _ _ hx ?_
  intro x2 j h2
  exact ⟨h2.1, h2.2.1, fun hw => wf_set _ _ _ _ (h2.2.2 hw)⟩

theorem get_sub_assign (a b : Matrix) (hw : a.wf) (r c : ℕ) :
    (a.sub_assign b).get r c
      = if r < a.rows ∧ c < a.cols then a.get r c - b.get r c else a.get r c := by
  have h := get_foldl_set_rect
    (fun x p => x.set p.1 p.2 (x.get p.1 p.2 - b.get p.1 p.2))
    (fun p x => x - b.get p.1 p.2) (fun x p => rfl) a.rows a.cols a hw le_rfl le_rfl r c
  exact h

theorem get_rhs_shape (m : Matrix) :
    m.get_rhs.rows = m.rows ∧ m.get_rhs.cols = 1 ∧ m.get_rhs.wf := by
  unfold get_rhs
  refine foldl_preserve (fun a => a.rows = m.rows ∧ a.cols = 1 ∧ a.wf)
    _ _ _ ⟨rfl, rfl, wf_new _ _⟩ ?_
  intro a i ha
  exact ⟨ha.1, ha.2.1, wf_set _ _ _ _ ha.2.2⟩

theorem get_get_rhs (m : Matrix) (r c : ℕ) :
    m.get_rhs.get r c = if r < m.rows ∧ c = 0 then m.get r (m.cols - 1) else 0 := by
  have h := get_foldl_set_col (fun a i => a.set i 0 (m.get i (m.cols - 1)))
    (fun i _ => m.get i (m.cols - 1)) (fun a i => rfl) m.rows
    (new m.rows 1) (wf_new _ _) le_rfl (by norm_num [new]) r c
  rw [get_new] at h
  exact h

theorem extract_result_shape (self mx : Matrix) :
    (self.extract_result mx).rows = self.rows ∧ (self.extract_result mx).cols = 1 ∧
      (self.extract_result mx).wf := by
  unfold extract_result
  refine foldl_preserve (fun a => a.rows = self.rows ∧ a.cols = 1 ∧ a.wf)
    _ _ _ ⟨rfl, rfl, wf_new _ _⟩ ?_
  intro a i ha
  exact ⟨ha.1, ha.2.1, wf_set _ _ _ _ ha.2.2⟩

theorem get_extract_result (self mx : Matrix) (r c : ℕ) :
    (self.extract_result mx).get r c
      = if r < self.rows ∧ c = 0 then mx.get r self.rows / mx.get r r else 0 := by
  have h := get_foldl_set_col (fun a i => a.set i 0 (mx.get i self.rows / mx.get i i))
    (fun i _ => mx.get i self.rows / mx.get i i) (fun a i => rfl) self.rows
    (new self.rows 1) (wf_new _ _) le_rfl (by norm_num [new]) r c
  rw [get_new] at h
  exact h

theorem calculate_right_shape (m cr : Matrix) :
    (m.calculate_right cr).rows = m.cols - 1 ∧ (m.calculate_right cr).cols = 1 ∧
      (m.calculate_right cr).wf := by
  unfold calculate_right
  refine foldl_preserve (fun a => a.rows = m.cols - 1 ∧ a.cols = 1 ∧ a.wf)
    _ _ _ ⟨rfl, rfl, wf_new _ _⟩ ?_
  intro a i ha
  exact ⟨ha.1, ha.2.1, wf_set _ _ _ _ ha.2.2⟩

theorem get_calculate_right (m cr : Matrix) (hb : m.rows ≤ m.cols - 1) (r c : ℕ) :
    (m.calculate_right cr).get r c
      = if r < m.rows ∧ c = 0
        then ∑ k ∈ Finset.range cr.rows, cr.get k 0 * m.get r k
        else 0 := by
  have h := get_foldl_set_col
    (fun a i => a.set i 0 ((List.range cr.rows).foldl
      (fun acc k => acc + cr.get k 0 * m.get i k) 0))
    (fun i _ => (List.range cr.rows).foldl (fun acc k => acc + cr.get k 0 * m.get i k) 0)
    (fun a i => rfl) m.rows (new (m.cols - 1) 1) (wf_new _ _)
    (by rw [rows_new]; exact hb) (by norm_num [new]) r c
  rw [get_new, foldl_add_eq_sum] at h
  exact h

/-! ### Row-update folds: the elimination steps -/

/-- Pointwise description of a fold subtracting `f` times row `s` from row `t`,
column by column over a duplicate-free column list, as performed by both
`echelon` and the inner loop of `eliminate`. -/
theorem get_foldl_row_update (t s : ℕ) (f : ℚ) (l : List ℕ) (m : Matrix)
    (hw : m.wf) (hnd : l.Nodup) (hts : t ≠ s) (ht : t < m.rows)
    (hl : ∀ x ∈ l, x < m.cols) (r c : ℕ) :
    (l.foldl (fun a k => a.set t k (a.get t k - f * a.get s k)) m).get r c
      = if r = t ∧ c ∈ l then m.get t c - f * m.get s c else m.get r c := by
  induction l generalizing m with
  | nil => simp
  | cons k rest ih =>
    have hk := hl k (List.mem_cons_self k rest)
    have hknotin : k ∉ rest := (List.nodup_cons.mp hnd).1
    have hm' : (m.set t k (m.get t k - f * m.get s k)).wf := wf_set _ _ _ _ hw
    rw [List.foldl_cons,
      ih _ hm' (List.Nodup.of_cons hnd) ht (fun x hx => hl x (List.mem_cons_of_mem k hx))]
    by_cases hr : r = t
    · subst hr
      by_cases hck : c = k
      · subst hck
        rw [if_neg (fun hx => hknotin hx.2), if_pos ⟨rfl, List.mem_cons_self _ rest⟩]
        exact get_set_self _ _ _ _ hw ht hk
      · by_cases hcrest : c ∈ rest
        · rw [if_pos ⟨rfl, hcrest⟩, if_pos ⟨rfl, List.mem_cons_of_mem k hcrest⟩,
            get_set_ne _ _ _ _ _ _ (Or.inr (fun hh => hck hh.symm)),
            get_set_ne _ _ _ _ _ _ (Or.inl hts)]
        · rw [if_neg (fun hx => hcrest hx.2),
            if_neg (fun hx => by
              rcases List.mem_cons.mp hx.2 with h | h
              · exact hck h
              · exact hcrest h),
            get_set_ne _ _ _ _ _ _ (Or.inr (fun hh => hck hh.symm))]
    · rw [if_neg (fun hx => hr hx.1), if_neg (fun hx => hr hx.1),
        get_set_ne _ _ _ _ _ _ (Or.inl (fun hh => hr hh.symm))]

/-- Entrywise effect of `echelon_run row row_against` (lines 43–47 of
`src/matrix.rs`): row `row_against + 1` gets `factor` times row `row`
subtracted in columns `row..rows`, everything else is untouched. -/
theorem get_echelon_run (m : Matrix) (row row_against : ℕ) (hw : m.wf)
    (hne : row_against + 1 ≠ row) (ht : row_against + 1 < m.rows)
    (hrc : m.rows < m.cols) (hrow : row ≤ m.rows) (r c : ℕ) :
    (m.echelon_run row row_against).get r c
      = if r = row_against + 1 ∧ (row ≤ c ∧ c ≤ m.rows) then
          m.get (row_against + 1) c
            - (m.get (row_against + 1) row / m.get row row) * m.get row c
        else m.get r c := by
  have h := get_foldl_row_update (row_against + 1) row
    (m.get (row_against + 1) row / m.get row row)
    (List.range' row (m.rows + 1 - row)) m hw (List.nodup_range' _ _) hne ht
    (fun x hx => by
      have hm := List.mem_range'_1.mp hx
      omega) r c
  have hiff : ∀ x : ℕ, x ∈ List.range' row (m.rows + 1 - row) ↔ (row ≤ x ∧ x ≤ m.rows) := by
    intro x
    rw [List.mem_range'_1]
    omega
  simp only [hiff] at h
  exact h

theorem echelon_run_shape (m : Matrix) (row row_against : ℕ) :
    (m.echelon_run row row_against).rows = m.rows ∧
      (m.echelon_run row row_against).cols = m.cols ∧
      (m.wf → (m.echelon_run row row_against).wf) := by
  unfold echelon_run
  exact shape_wf_foldl _ (fun a b => ⟨_, _, _, rfl⟩) _ m

theorem echelon_eq_ok (m : Matrix) (row row_against : ℕ) (h : m.get row row ≠ 0) :
    m.echelon row row_against = .ok (m.echelon_run row row_against) := by
  unfold echelon
  rw [if_neg h]

theorem echelon_eq_error (m : Matrix) (row row_against : ℕ) (h : m.get row row = 0) :
    m.echelon row row_against = .error (CalculationError.new .UnableToCalculate) := by
  unfold echelon
  rw [if_pos h]

theorem echelon_ok_elim (m m' : Matrix) (row row_against : ℕ)
    (h : m.echelon row row_against = .ok m') :
    m.get row row ≠ 0 ∧ m' = m.echelon_run row row_against := by
  by_cases h0 : m.get row row = 0
  · rw [echelon_eq_error m _ _ h0] at h
    exact Except.noConfusion h
  · rw [echelon_eq_ok m _ _ h0] at h
    exact ⟨h0, (Except.ok.injEq _ _).mp h.symm⟩

/-- Entrywise effect of the backward-elimination loop over `j = jmax, …, 1`
with fixed pivot row `i` (`eliminate_run` generalised over the loop bound):
every row `r < jmax` gets `(m[r][i] / m[i][i]) ·` row `i` subtracted in columns
`0..rows`, and nothing else changes.  The factors read at loop time coincide
with the initial values because rows `≥ i` are never written. -/
theorem get_eliminate_aux (i : ℕ) :
    ∀ (jmax : ℕ) (m : Matrix), m.wf → i < m.rows → m.rows < m.cols → jmax ≤ i →
    ∀ r c,
    (((List.range' 1 jmax).reverse).foldl
        (fun acc j =>
          let factor := acc.get (j - 1) i / acc.get i i
          ((List.range (acc.rows + 1)).reverse).foldl
            (fun a k => a.set (j - 1) k (a.get (j - 1) k - factor * a.get i k)) acc)
        m).get r c
      = if r < jmax ∧ c ≤ m.rows then
          m.get r c - (m.get r i / m.get i i) * m.get i c
        else m.get r c := by
  intro jmax
  induction jmax with
  | zero =>
    intro m hw hi hrc h0 r c
    simp
  | succ jm ih =>
    intro m hw hi hrc hle r c
    have hlist : (List.range' 1 (jm + 1)).reverse = (jm + 1) :: (List.range' 1 jm).reverse := by
      rw [List.range'_concat, List.reverse_append]
      simp [Nat.add_comm]
    rw [hlist, List.foldl_cons]
    have hjmi : jm < i := hle
    have key : ∀ m₁, m₁ = ((List.range (m.rows + 1)).reverse).foldl
        (fun a k => a.set jm k
          (a.get jm k - (m.get jm i / m.get i i) * a.get i k)) m →
        (((List.range' 1 jm).reverse).foldl
          (fun acc j =>
            let factor := acc.get (j - 1) i / acc.get i i
            ((List.range (acc.rows + 1)).reverse).foldl
              (fun a k => a.set (j - 1) k (a.get (j - 1) k - factor * a.get i k)) acc)
          m₁).get r c
        = if r < jm + 1 ∧ c ≤ m.rows then
            m.get r c - (m.get r i / m.get i i) * m.get i c
          else m.get r c := by
      intro m₁ hm₁
      have hsh := shape_wf_foldl
        (fun a k => a.set jm k (a.get jm k - (m.get jm i / m.get i i) * a.get i k))
        (fun a b => ⟨_, _, _, rfl⟩) ((List.range (m.rows + 1)).reverse) m
      have hrows₁ : m₁.rows = m.rows := by rw [hm₁]; exact hsh.1
      have hcols₁ : m₁.cols = m.cols := by rw [hm₁]; exact hsh.2.1
      have hwf₁ : m₁.wf := by rw [hm₁]; exact hsh.2.2 hw
      have h₁ : ∀ r' c', m₁.get r' c'
          = if r' = jm ∧ c' ≤ m.rows then
              m.get jm c' - (m.get jm i / m.get i i) * m.get i c'
            else m.get r' c' := by
        intro r' c'
        have hh := get_foldl_row_update jm i (m.get jm i / m.get i i)
          ((List.range (m.rows + 1)).reverse) m hw (List.nodup_reverse.mpr (List.nodup_range _))
          (Nat.ne_of_lt hjmi) (lt_trans hjmi hi)
          (fun x hx => by
            have := List.mem_range.mp (List.mem_reverse.mp hx)
            omega) r' c'
        have hiff : ∀ x : ℕ, x ∈ (List.range (m.rows + 1)).reverse ↔ x ≤ m.rows := by
          intro x
          rw [List.mem_reverse, List.mem_range]
          omega
        simp only [hiff] at hh
        rw [← hm₁] at hh
        exact hh
      have hih := ih m₁ hwf₁ (by rw [hrows₁]; exact hi)
        (by rw [hrows₁, hcols₁]; exact hrc) (le_of_lt hjmi) r c
      rw [hih, hrows₁]
      by_cases hcr : c ≤ m.rows
      · by_cases hrlt : r < jm
        · rw [if_pos ⟨hrlt, hcr⟩, if_pos ⟨Nat.lt_succ_of_lt hrlt, hcr⟩]
          have hne : r ≠ jm := Nat.ne_of_lt hrlt
          have hnei : (i : ℕ) ≠ jm := (Nat.ne_of_lt hjmi).symm
          rw [h₁ r c, if_neg (fun hx => hne hx.1),
            h₁ r i, if_neg (fun hx => hne hx.1),
            h₁ i i, if_neg (fun hx => hnei hx.1),
            h₁ i c, if_neg (fun hx => hnei hx.1)]
        · by_cases hreq : r = jm
          · subst hreq
            rw [if_neg (fun hx => hrlt hx.1), if_pos ⟨Nat.lt_succ_self r, hcr⟩,
              h₁ r c, if_pos ⟨rfl, hcr⟩]
          · have hge : ¬ r < jm + 1 := by omega
            rw [if_neg (fun hx => hrlt hx.1), if_neg (fun hx => hge hx.1),
              h₁ r c, if_neg (fun hx => hreq hx.1)]
      · have hnei : (i : ℕ) ≠ jm := (Nat.ne_of_lt hjmi).symm
        rw [if_neg (fun hx => hcr hx.2), if_neg (fun hx => hcr hx.2), h₁ r c,
          if_neg (fun hx => hcr hx.2)]
    exact key _ rfl

/-- Entrywise effect of `eliminate_run i` (lines 55–61 of `src/matrix.rs`). -/
theorem get_eliminate_run (m : Matrix) (i : ℕ) (hw : m.wf) (hi : i < m.rows)
    (hrc : m.rows < m.cols) (r c : ℕ) :
    (m.eliminate_run i).get r c
      = if r < i ∧ c ≤ m.rows then m.get r c - (m.get r i / m.get i i) * m.get i c
        else m.get r c :=
  get_eliminate_aux i i m hw hi hrc le_rfl r c

theorem eliminate_run_shape (m : Matrix) (i : ℕ) :
    (m.eliminate_run i).rows = m.rows ∧ (m.eliminate_run i).cols = m.cols ∧
      (m.wf → (m.eliminate_run i).wf) := by
  unfold eliminate_run
  refine foldl_preserve
    (fun a => a.rows = m.rows ∧ a.cols = m.cols ∧ (m.wf → a.wf))
    _ _ _ ⟨rfl, rfl, fun h => h⟩ ?_
  intro a j ha
  have hsh := shape_wf_foldl
    (fun x k => x.set (j - 1) k
      (x.get (j - 1) k - (a.get (j - 1) i / a.get i i) * x.get i k))
    (fun x b => ⟨_, _, _, rfl⟩) ((List.range (a.rows + 1)).reverse) a
  exact ⟨hsh.1.trans ha.1, hsh.2.1.trans ha.2.1, fun hw => hsh.2.2 (ha.2.2 hw)⟩

theorem eliminate_eq_ok (m : Matrix) (i : ℕ) (h : m.get i i ≠ 0) :
    m.eliminate i = .ok (m.eliminate_run i) := by
  unfold eliminate
  rw [if_neg h]

theorem eliminate_eq_error (m : Matrix) (i : ℕ) (h : m.get i i = 0) :
    m.eliminate i = .error (CalculationError.new .UnableToCalculate) := by
  unfold eliminate
  rw [if_pos h]

theorem eliminate_ok_elim (m m' : Matrix) (i : ℕ) (h : m.eliminate i = .ok m') :
    m.get i i ≠ 0 ∧ m' = m.eliminate_run i := by
  by_cases h0 : m.get i i = 0
  · rw [eliminate_eq_error m _ h0] at h
    exact Except.noConfusion h
  · rw [eliminate_eq_ok m _ h0] at h
    exact ⟨h0, (Except.ok.injEq _ _).mp h.symm⟩

/-! ### Phase 1: forward elimination -/

/-- One forward pass for pivot `i` over targets `j ∈ range' j₀ k` (with
`i ≤ j₀`): it fails iff the pivot is zero (and there is at least one step);
otherwise rows `≤ j₀` and columns `< i` are untouched and the entries
`[j+1][i]` for the processed `j` become zero. -/
theorem forward_pass (i : ℕ) :
    ∀ (k j₀ : ℕ) (a : Matrix), a.wf → a.cols = a.rows + 1 → i ≤ j₀ →
      j₀ + k ≤ a.rows - 1 → i < a.rows →
    (a.get i i = 0 → 1 ≤ k →
        (List.range' j₀ k).foldlM (fun x j => x.echelon i j) a
          = .error (CalculationError.new .UnableToCalculate)) ∧
    (a.get i i ≠ 0 →
        ∃ b, (List.range' j₀ k).foldlM (fun x j => x.echelon i j) a = .ok b ∧
          b.wf ∧ b.rows = a.rows ∧ b.cols = a.cols ∧
          (∀ r c, r ≤ j₀ → b.get r c = a.get r c) ∧
          (∀ r c, c < i → b.get r c = a.get r c) ∧
          (∀ j, j₀ ≤ j → j < j₀ + k → b.get (j + 1) i = 0)) := by
  intro k
  induction k with
  | zero =>
    intro j₀ a hw hc hij hbound hi
    constructor
    · intro _ h1
      exact absurd h1 (by omega)
    · intro h0
      exact ⟨a, rfl, hw, rfl, rfl, fun r c _ => rfl, fun r c _ => rfl,
        fun j h1 h2 => absurd (lt_of_le_of_lt h1 h2) (by omega)⟩
  | succ k ih =>
    intro j₀ a hw hc hij hbound hi
    have hb1 : j₀ + 1 < a.rows := by omega
    have hne : j₀ + 1 ≠ i := by omega
    have hrc : a.rows < a.cols := by omega
    have hrowle : i ≤ a.rows := le_of_lt hi
    constructor
    · intro h0 _
      rw [List.range'_succ, foldlM_except_cons, echelon_eq_error a i j₀ h0,
        except_error_bind]
    · intro h0
      have hrun := echelon_run_shape a i j₀
      have hchar := fun r c => get_echelon_run a i j₀ hw hne hb1 hrc hrowle r c
      have hwf1 : (a.echelon_run i j₀).wf := hrun.2.2 hw
      have hpiv1 : (a.echelon_run i j₀).get i i = a.get i i := by
        rw [hchar i i, if_neg (fun hx => hne hx.1.symm)]
      have hih := ih (j₀ + 1) (a.echelon_run i j₀) hwf1
        (by rw [hrun.1, hrun.2.1]; exact hc) (by omega)
        (by rw [hrun.1]; omega) (by rw [hrun.1]; exact hi)
      obtain ⟨b, hfold, hbwf, hbrows, hbcols, hblow, hbcolu, hbzero⟩ :=
        hih.2 (by rw [hpiv1]; exact h0)
      refine ⟨b, ?_, hbwf, hbrows.trans hrun.1, hbcols.trans hrun.2.1, ?_, ?_, ?_⟩
      · rw [List.range'_succ, foldlM_except_cons, echelon_eq_ok a i j₀ h0,
          except_ok_bind, hfold]
      · intro r c hr
        rw [hblow r c (by omega), hchar r c, if_neg (fun hx => by omega)]
      · intro r c hcc
        rw [hbcolu r c hcc, hchar r c,
          if_neg (fun hx => absurd hx.2.1 (by omega))]
      · intro j hj1 hj2
        by_cases hjj : j = j₀
        · subst hjj
          rw [hblow (j + 1) i (by omega), hchar (j + 1) i,
            if_pos ⟨rfl, le_rfl, hrowle⟩, div_mul_cancel₀ _ h0, sub_self]
        · exact hbzero j (by omega) (by omega)

theorem forward_aux (n : ℕ) :
    ∀ (t i₀ : ℕ) (a : Matrix), a.wf → a.rows = n → a.cols = n + 1 →
      i₀ + t = n - 1 → a.fwd_inv i₀ →
    ∀ res, (List.range' i₀ t).foldlM
        (fun acc i => (List.range' i (n - 1 - i)).foldlM (fun x j => x.echelon i j) acc) a
        = .ok res →
      res.wf ∧ res.rows = n ∧ res.cols = n + 1 ∧ res.fwd_inv (n - 1) := by
  intro t
  induction t with
  | zero =>
    intro i₀ a hw hr hc hsum hinv res h
    rw [show List.range' i₀ 0 = [] from rfl, foldlM_except_nil] at h
    cases h
    have hi₀ : i₀ = n - 1 := by omega
    exact ⟨hw, hr, hc, hi₀ ▸ hinv⟩
  | succ k ih =>
    intro i₀ a hw hr hc hsum hinv res h
    rw [List.range'_succ, foldlM_except_cons] at h
    have hpass := forward_pass i₀ (n - 1 - i₀) i₀ a hw (by omega) le_rfl
      (by omega) (by omega)
    by_cases h0 : a.get i₀ i₀ = 0
    · rw [hpass.1 h0 (by omega), except_error_bind] at h
      exact Except.noConfusion h
    · obtain ⟨b, hfold, hbwf, hbrows, hbcols, hblow, hbcolu, hbzero⟩ := hpass.2 h0
      rw [hfold, except_ok_bind] at h
      refine ih (i₀ + 1) b hbwf (hbrows.trans hr) (hbcols.trans hc) (by omega)
        ⟨?_, ?_⟩ res h
      · intro c hcc r hcr
        rcases Nat.lt_succ_iff_lt_or_eq.mp hcc with hlt | heq
        · rw [hbcolu r c hlt]
          exact hinv.1 c hlt r hcr
        · subst heq
          rcases lt_or_le r n with hrn | hrn
          · have := hbzero (r - 1) (by omega) (by omega)
            have hr1 : r - 1 + 1 = r := by omega
            rwa [hr1] at this
          · exact get_of_rows_le b r c hbwf (by omega)
      · intro d hd
        rcases Nat.lt_succ_iff_lt_or_eq.mp hd with hlt | heq
        · rw [hblow d d (by omega)]
          exact hinv.2 d hlt
        · subst heq
          rw [hblow d d le_rfl]
          exact h0

/-- Summary of a successful phase 1 (`forward_phase`): shape is preserved and
the result satisfies the full forward invariant. -/
theorem forward_phase_ok (m w : Matrix) (hw : m.wf) (hs : m.cols = m.rows + 1)
    (h : m.forward_phase = .ok w) :
    w.wf ∧ w.rows = m.rows ∧ w.cols = m.cols ∧ w.fwd_inv (m.rows - 1) := by
  unfold forward_phase at h
  rw [List.range_eq_range'] at h
  have haux := forward_aux m.rows (m.rows - 1) 0 m hw rfl (by omega) (by omega)
    ⟨fun c hcc => absurd hcc (Nat.not_lt_zero c),
     fun d hd => absurd hd (Nat.not_lt_zero d)⟩ w h
  exact ⟨haux.1, haux.2.1, by omega, haux.2.2.2⟩

theorem lower_zero_of_fwd_inv (w : Matrix) (n : ℕ) (hw : w.wf) (hr : w.rows = n)
    (hinv : w.fwd_inv (n - 1)) : w.lower_zero := by
  intro r c hcr
  rcases lt_or_le r n with hrn | hrn
  · exact hinv.1 c (by omega) r hcr
  · exact get_of_rows_le w r c hw (by omega)

/-! ### Phase 2: backward elimination -/

theorem reverse_range'_succ (k : ℕ) :
    (List.range' 1 (k + 1)).reverse = (k + 1) :: (List.range' 1 k).reverse := by
  rw [List.range'_concat, List.reverse_append]
  simp [Nat.add_comm]

theorem backward_aux (n : ℕ) :
    ∀ (t : ℕ) (a : Matrix), a.wf → a.rows = n → a.cols = n + 1 → t < n →
      a.lower_zero →
    ∀ res, ((List.range' 1 t).reverse).foldlM (fun x i => x.eliminate i) a = .ok res →
      res.wf ∧ res.rows = n ∧ res.cols = n + 1 ∧ res.lower_zero ∧
      (∀ d, res.get d d = a.get d d) ∧ (1 ≤ t → a.get t t ≠ 0) := by
  intro t
  induction t with
  | zero =>
    intro a hw hr hc ht hlz res h
    rw [show (List.range' 1 0).reverse = [] from rfl, foldlM_except_nil] at h
    cases h
    exact ⟨hw, hr, hc, hlz, fun d => rfl, fun h1 => absurd h1 (by omega)⟩
  | succ k ih =>
    intro a hw hr hc ht hlz res h
    rw [reverse_range'_succ, foldlM_except_cons] at h
    by_cases h0 : a.get (k + 1) (k + 1) = 0
    · rw [eliminate_eq_error a (k + 1) h0, except_error_bind] at h
      exact Except.noConfusion h
    · rw [eliminate_eq_ok a (k + 1) h0, except_ok_bind] at h
      have hi1 : k + 1 < a.rows := by omega
      have hrc : a.rows < a.cols := by omega
      have hchar := fun r c => get_eliminate_run a (k + 1) hw hi1 hrc r c
      have hsh := eliminate_run_shape a (k + 1)
      have hlz1 : (a.eliminate_run (k + 1)).lower_zero := by
        intro r c hcr
        rw [hchar r c]
        by_cases hx : r < k + 1 ∧ c ≤ a.rows
        · rw [if_pos hx, hlz r c hcr, hlz (k + 1) c (by omega), mul_zero, sub_zero]
        · rw [if_neg hx]
          exact hlz r c hcr
      have hdiag1 : ∀ d, (a.eliminate_run (k + 1)).get d d = a.get d d := by
        intro d
        rw [hchar d d]
        by_cases hx : d < k + 1 ∧ d ≤ a.rows
        · rw [if_pos hx, hlz (k + 1) d (by omega), mul_zero, sub_zero]
        · rw [if_neg hx]
      have hih := ih (a.eliminate_run (k + 1)) (hsh.2.2 hw) (hsh.1.trans hr)
        (hsh.2.1.trans hc) (by omega) hlz1 res h
      exact ⟨hih.1, hih.2.1, hih.2.2.1, hih.2.2.2.1,
        fun d => (hih.2.2.2.2.1 d).trans (hdiag1 d),
        fun _ => h0⟩

/-- Summary of a successful phase 2 (`backward_phase`) started from an
upper-triangular matrix: shape, triangularity and every diagonal entry are
preserved, and the last pivot was checked nonzero on entry. -/
theorem backward_phase_ok (m₁ m₂ : Matrix) (hw : m₁.wf)
    (hs : m₁.cols = m₁.rows + 1) (h1 : 1 ≤ m₁.rows) (hlz : m₁.lower_zero)
    (h : m₁.backward_phase = .ok m₂) :
    m₂.wf ∧ m₂.rows = m₁.rows ∧ m₂.cols = m₁.cols ∧ m₂.lower_zero ∧
      (∀ d, m₂.get d d = m₁.get d d) ∧
      (2 ≤ m₁.rows → m₁.get (m₁.rows - 1) (m₁.rows - 1) ≠ 0) := by
  unfold backward_phase at h
  have haux := backward_aux m₁.rows (m₁.rows - 1) m₁ hw rfl (by omega) (by omega)
    hlz m₂ h
  exact ⟨haux.1, haux.2.1, by omega, haux.2.2.2.1, haux.2.2.2.2.1,
    fun h2 => haux.2.2.2.2.2 (by omega)⟩

/-! ### The assembled solver -/

theorem gaussian_elimination_guard_error (m : Matrix)
    (hg : (m.cols + (USIZE - 1)) % USIZE ≠ m.rows) :
    m.gaussian_elimination = .error (CalculationError.new .IncorrectSize) := by
  unfold gaussian_elimination
  rw [if_pos hg]

/-- A successful solve decomposes into: guard passed, phase 1 on the clone
succeeded, phase 2 succeeded, and the output is `extract_result`/`residual`. -/
theorem gaussian_elimination_ok_elim (m : Matrix) (res : EliminationResult)
    (h : m.gaussian_elimination = .ok res) :
    (m.cols + (USIZE - 1)) % USIZE = m.rows ∧
    ∃ m₁ m₂, m.clone.forward_phase = .ok m₁ ∧ m₁.backward_phase = .ok m₂ ∧
      res = ⟨m.extract_result m₂, m.residual (m.extract_result m₂)⟩ := by
  unfold gaussian_elimination at h
  by_cases hg : (m.cols + (USIZE - 1)) % USIZE ≠ m.rows
  · rw [if_pos hg] at h
    exact Except.noConfusion h
  · rw [if_neg hg] at h
    push_neg at hg
    refine ⟨hg, ?_⟩
    have h' : (m.clone.forward_phase >>= fun m1 =>
        m1.backward_phase >>= fun m2 =>
          pure ⟨m.extract_result m2, m.residual (m.extract_result m2)⟩)
        = (Except.ok res : Except CalculationError EliminationResult) := h
    cases h1 : m.clone.forward_phase with
    | error e =>
      rw [h1, except_error_bind] at h'
      exact Except.noConfusion h'
    | ok m₁ =>
      rw [h1, except_ok_bind] at h'
      cases h2 : m₁.backward_phase with
      | error e =>
        rw [h2, except_error_bind] at h'
        exact Except.noConfusion h'
      | ok m₂ =>
        rw [h2, except_ok_bind] at h'
        have h'' : (Except.ok ⟨m.extract_result m₂, m.residual (m.extract_result m₂)⟩
            : Except CalculationError EliminationResult) = .ok res := h'
        exact ⟨m₁, m₂, rfl, h2, ((Except.ok.injEq _ _).mp h'').symm⟩

theorem residual_shape (self result : Matrix) :
    (self.residual result).rows = self.rows ∧ (self.residual result).cols = 1 ∧
      (self.residual result).wf := by
  have hrhs := self.get_rhs_shape
  have hsub := (self.get_rhs).sub_assign_shape (self.calculate_right result)
  have hsubwf := hsub.2.2 hrhs.2.2
  show ((List.range (self.get_rhs.sub_assign (self.calculate_right result)).rows).foldl
      (fun e idx => e.set idx 0 |e.get idx 0|)
      (self.get_rhs.sub_assign (self.calculate_right result))).rows = self.rows ∧ _ ∧ _
  have habs := shape_wf_foldl (fun e idx => e.set idx 0 |e.get idx 0|)
    (fun a b => ⟨_, _, _, rfl⟩)
    (List.range (self.get_rhs.sub_assign (self.calculate_right result)).rows)
    (self.get_rhs.sub_assign (self.calculate_right result))
  exact ⟨habs.1.trans (hsub.1.trans hrhs.1), habs.2.1.trans (hsub.2.1.trans hrhs.2.1),
    habs.2.2 hsubwf⟩

theorem get_residual (self result : Matrix) (i : ℕ) (hi : i < self.rows) :
    (self.residual result).get i 0
      = |self.get_rhs.get i 0 - (self.calculate_right result).get i 0| := by
  have hrhs := self.get_rhs_shape
  have hsub := (self.get_rhs).sub_assign_shape (self.calculate_right result)
  have hsubwf := hsub.2.2 hrhs.2.2
  show ((List.range (self.get_rhs.sub_assign (self.calculate_right result)).rows).foldl
      (fun e idx => e.set idx 0 |e.get idx 0|)
      (self.get_rhs.sub_assign (self.calculate_right result))).get i 0 = _
  rw [get_foldl_set_col (fun e idx => e.set idx 0 |e.get idx 0|) (fun _ x => |x|)
    (fun a j => rfl) _ _ hsubwf le_rfl
    (by rw [hsub.2.1, hrhs.2.1]; norm_num) i 0]
  rw [if_pos ⟨by rw [hsub.1, hrhs.1]; exact hi, rfl⟩]
  rw [get_sub_assign _ _ hrhs.2.2 i 0,
    if_pos ⟨by rw [hrhs.1]; exact hi, by rw [hrhs.2.1]; norm_num⟩]

theorem foldlM_error_head {β : Type} (f : Matrix → β → Except CalculationError Matrix)
    (b : β) (l : List β) (m : Matrix) (e : CalculationError) (h : f m b = .error e) :
    (b :: l).foldlM f m = .error e := by
  rw [foldlM_except_cons, h, except_error_bind]

/-- If every step of a `foldlM` can only fail with the error `E`, so can the
whole fold. -/
theorem foldlM_error_elim {β : Type} (f : Matrix → β → Except CalculationError Matrix)
    (E : CalculationError) (hf : ∀ a b e, f a b = .error e → e = E) :
    ∀ (l : List β) (m : Matrix) (e : CalculationError),
      l.foldlM f m = .error e → e = E := by
  intro l
  induction l with
  | nil =>
    intro m e h
    rw [foldlM_except_nil] at h
    exact Except.noConfusion h
  | cons b t ih =>
    intro m e h
    rw [foldlM_except_cons] at h
    cases hf' : f m b with
    | error e' =>
      rw [hf', except_error_bind] at h
      have he : e' = e := (Except.error.injEq _ _).mp h
      exact he ▸ hf _ _ _ hf'
    | ok x =>
      rw [hf', except_ok_bind] at h
      exact ih x e h

/-- `echelon` can only fail with `UnableToCalculate` (its zero-pivot check). -/
theorem echelon_error_elim (m : Matrix) (row row_against : ℕ) (e : CalculationError)
    (h : m.echelon row row_against = .error e) :
    e = CalculationError.new .UnableToCalculate := by
  by_cases h0 : m.get row row = 0
  · rw [echelon_eq_error m _ _ h0] at h
    exact ((Except.error.injEq _ _).mp h).symm
  · rw [echelon_eq_ok m _ _ h0] at h
    exact Except.noConfusion h

/-- `eliminate` can only fail with `UnableToCalculate` (its zero-pivot check). -/
theorem eliminate_error_elim (m : Matrix) (i : ℕ) (e : CalculationError)
    (h : m.eliminate i = .error e) : e = CalculationError.new .UnableToCalculate := by
  by_cases h0 : m.get i i = 0
  · rw [eliminate_eq_error m _ h0] at h
    exact ((Except.error.injEq _ _).mp h).symm
  · rw [eliminate_eq_ok m _ h0] at h
    exact Except.noConfusion h

/-- A phase-1 failure is always a zero-pivot failure: the only error path of
the forward loops is the pivot check of `echelon`. -/
theorem forward_phase_error_elim (m : Matrix) (e : CalculationError)
    (h : m.forward_phase = .error e) : e = CalculationError.new .UnableToCalculate := by
  unfold forward_phase at h
  refine foldlM_error_elim _ _ ?_ _ _ _ h
  intro a i e' h'
  exact foldlM_error_elim _ _ (fun x j e'' h'' => echelon_error_elim x i j e'' h'')
    _ _ _ h'

/-- A phase-2 failure is always a zero-pivot failure: the only error path of
the backward loop is the pivot check of `eliminate`. -/
theorem backward_phase_error_elim (m : Matrix) (e : CalculationError)
    (h : m.backward_phase = .error e) : e = CalculationError.new .UnableToCalculate := by
  unfold backward_phase at h
  exact foldlM_error_elim _ _ (fun x i e' h' => eliminate_error_elim x i e' h')
    _ _ _ h

/-- An error of phase 1 on the clone aborts `gaussian_elimination` with that
very error and no partial result. -/
theorem gaussian_elimination_forward_error (m : Matrix) (e : CalculationError)
    (hg : (m.cols + (USIZE - 1)) % USIZE = m.rows)
    (h : m.clone.forward_phase = .error e) :
    m.gaussian_elimination = .error e := by
  have hres : (m.clone.forward_phase >>= fun m1 =>
      m1.backward_phase >>= fun m2 =>
        pure ⟨m.extract_result m2, m.residual (m.extract_result m2)⟩)
      = (Except.error e : Except CalculationError EliminationResult) := by
    rw [h, except_error_bind]
  unfold gaussian_elimination
  rw [if_neg (fun hne => hne hg)]
  exact hres

/-- An error of phase 2 after a successful phase 1 aborts
`gaussian_elimination` with that very error and no partial result. -/
theorem gaussian_elimination_backward_error (m m₁ : Matrix) (e : CalculationError)
    (hg : (m.cols + (USIZE - 1)) % USIZE = m.rows)
    (h1 : m.clone.forward_phase = .ok m₁) (h2 : m₁.backward_phase = .error e) :
    m.gaussian_elimination = .error e := by
  have hres : (m.clone.forward_phase >>= fun m1 =>
      m1.backward_phase >>= fun m2 =>
        pure ⟨m.extract_result m2, m.residual (m.extract_result m2)⟩)
      = (Except.error e : Except CalculationError EliminationResult) := by
    rw [h1, except_ok_bind, h2, except_error_bind]
  unfold gaussian_elimination
  rw [if_neg (fun hne => hne hg)]
  exact hres

end Matrix

/-! ### Concrete evaluations used by the witnesses -/

theorem evalW_clone :
    (Matrix.mk [[1, 0, 2], [0, 1, 3]] 2 3).clone = Matrix.mk [[1, 0, 2], [0, 1, 3]] 2 3 := by
  simp [Matrix.clone, show List.range 2 = [0, 1] from rfl,
    show List.range 3 = [0, 1, 2] from rfl, Matrix.set, Matrix.get, Matrix.new]

theorem evalW_fwd :
    (Matrix.mk [[1, 0, 2], [0, 1, 3]] 2 3).forward_phase
      = .ok (Matrix.mk [[1, 0, 2], [0, 1, 3]] 2 3) := by
  rw [Matrix.forward_phase]
  norm_num [Matrix.echelon, Matrix.echelon_run, Matrix.get, Matrix.set,
    show List.range 1 = [0] from rfl, show List.range' 0 1 = [0] from rfl,
    show List.range' 0 3 = [0, 1, 2] from rfl]

theorem evalW_bwd :
    (Matrix.mk [[1, 0, 2], [0, 1, 3]] 2 3).backward_phase
      = .ok (Matrix.mk [[1, 0, 2], [0, 1, 3]] 2 3) := by
  rw [Matrix.backward_phase]
  norm_num [Matrix.eliminate, Matrix.eliminate_run, Matrix.get, Matrix.set,
    show (List.range' 1 1).reverse = [1] from rfl,
    show (List.range' 1 0).reverse = [] from rfl,
    show (List.range 3).reverse = [2, 1, 0] from rfl]
  rfl

theorem evalW_extract :
    (Matrix.mk [[1, 0, 2], [0, 1, 3]] 2 3).extract_result
        (Matrix.mk [[1, 0, 2], [0, 1, 3]] 2 3)
      = Matrix.mk [[2], [3]] 2 1 := by
  norm_num [Matrix.extract_result, Matrix.get, Matrix.set, Matrix.new,
    show List.range 2 = [0, 1] from rfl,
    show List.replicate 2 (List.replicate 1 (0 : ℚ)) = [[0], [0]] from rfl]
  rfl

theorem evalW_residual :
    (Matrix.mk [[1, 0, 2], [0, 1, 3]] 2 3).residual (Matrix.mk [[2], [3]] 2 1)
      = Matrix.mk [[0], [0]] 2 1 := by
  norm_num [Matrix.residual, Matrix.get_rhs, Matrix.sub_assign, Matrix.calculate_right,
    Matrix.new_column_matrix, Matrix.new, Matrix.get, Matrix.set,
    show List.range 1 = [0] from rfl, show List.range 2 = [0, 1] from rfl,
    show List.range 3 = [0, 1, 2] from rfl,
    show List.replicate 2 (List.replicate 1 (0 : ℚ)) = [[0], [0]] from rfl]
  rfl

theorem evalV_clone :
    (Matrix.mk [[1, 1, 2], [1, 1, 2]] 2 3).clone = Matrix.mk [[1, 1, 2], [1, 1, 2]] 2 3 := by
  simp [Matrix.clone, show List.range 2 = [0, 1] from rfl,
    show List.range 3 = [0, 1, 2] from rfl, Matrix.set, Matrix.get, Matrix.new]

theorem evalV_fwd :
    (Matrix.mk [[1, 1, 2], [1, 1, 2]] 2 3).forward_phase
      = .ok (Matrix.mk [[1, 1, 2], [0, 0, 0]] 2 3) := by
  rw [Matrix.forward_phase]
  norm_num [Matrix.echelon, Matrix.echelon_run, Matrix.get, Matrix.set,
    show List.range 1 = [0] from rfl, show List.range' 0 1 = [0] from rfl,
    show List.range' 0 3 = [0, 1, 2] from rfl]

theorem evalV_bwd_err :
    (Matrix.mk [[1, 1, 2], [0, 0, 0]] 2 3).backward_phase
      = .error (CalculationError.new .UnableToCalculate) := by
  rw [Matrix.backward_phase]
  norm_num [Matrix.eliminate, Matrix.get,
    show (List.range' 1 1).reverse = [1] from rfl]

theorem evalW_gauss :
    (Matrix.mk [[1, 0, 2], [0, 1, 3]] 2 3).gaussian_elimination
      = .ok ⟨Matrix.mk [[2], [3]] 2 1, Matrix.mk [[0], [0]] 2 1⟩ := by
  rw [Matrix.gaussian_elimination, if_neg (by decide)]
  simp only [evalW_clone, evalW_fwd, evalW_bwd, Matrix.except_ok_bind,
    evalW_extract, evalW_residual]
  rfl

/-! ### The claims -/

/-- C1 (counterexample): the claim "for every input whose first pivot element
`[0][0]` is exactly zero, `gaussian_elimination` fails with `UnableToCalculate`"
is false at the 1×2 augmented matrix `[[0, 1]]`: neither elimination loop
executes, so no pivot check runs and the call succeeds (with a division by the
zero pivot in the extraction step). -/
theorem claim_C1_counterexample :
    (Matrix.mk [[0, 1]] 1 2).wf ∧
    (Matrix.mk [[0, 1]] 1 2).cols = (Matrix.mk [[0, 1]] 1 2).rows + 1 ∧
    (Matrix.mk [[0, 1]] 1 2).get 0 0 = 0 ∧
    (Matrix.mk [[0, 1]] 1 2).gaussian_elimination
      ≠ .error (CalculationError.new .UnableToCalculate) := by
  have hclone : (Matrix.mk [[0, 1]] 1 2).clone = Matrix.mk [[0, 1]] 1 2 := by
    simp [Matrix.clone, show List.range 1 = [0] from rfl,
      show List.range 2 = [0, 1] from rfl, Matrix.set, Matrix.get, Matrix.new]
  have hfwd : (Matrix.mk [[0, 1]] 1 2).forward_phase = .ok (Matrix.mk [[0, 1]] 1 2) := by
    simp [Matrix.forward_phase]
    rfl
  have hbwd : (Matrix.mk [[0, 1]] 1 2).backward_phase = .ok (Matrix.mk [[0, 1]] 1 2) := by
    simp [Matrix.backward_phase]
    rfl
  have hgauss : (Matrix.mk [[0, 1]] 1 2).gaussian_elimination
      = .ok ⟨Matrix.mk [[0]] 1 1, Matrix.mk [[1]] 1 1⟩ := by
    rw [Matrix.gaussian_elimination, if_neg (by decide)]
    simp only [hclone, hfwd, hbwd, Matrix.except_ok_bind]
    have hext : (Matrix.mk [[0, 1]] 1 2).extract_result (Matrix.mk [[0, 1]] 1 2)
        = Matrix.mk [[0]] 1 1 := by
      norm_num [Matrix.extract_result, Matrix.get, Matrix.set, Matrix.new,
        show List.range 1 = [0] from rfl]
    have hres : (Matrix.mk [[0, 1]] 1 2).residual (Matrix.mk [[0]] 1 1)
        = Matrix.mk [[1]] 1 1 := by
      norm_num [Matrix.residual, Matrix.get_rhs, Matrix.sub_assign,
        Matrix.calculate_right, Matrix.new_column_matrix, Matrix.new, Matrix.get,
        Matrix.set, show List.range 1 = [0] from rfl,
        show List.range 2 = [0, 1] from rfl]
    simp only [hext, hres]
    rfl
  refine ⟨by decide, rfl, by norm_num [Matrix.get], ?_⟩
  rw [hgauss]
  simp

/-- C1 (amended): for every well-formed augmented matrix (`cols = rows + 1`,
`rows < 2^64`), on any zero-pivot encounter in either phase — i.e. whenever
the forward phase on the working clone fails, or it succeeds and the backward
phase fails (the pivot checks of `echelon`/`eliminate` being the phases' only
error paths) — the failure is `UnableToCalculate` and the whole
`gaussian_elimination` call returns exactly that error, with no partial
result.  In particular, for every such input with at least two rows whose
first pivot element `[0][0]` is exactly zero, the call fails with
`UnableToCalculate`.  (For a 1×2 input neither elimination loop executes, so
no pivot is encountered even though `[0][0] = 0`, and the call succeeds: the
only case the counterexample removes.) -/
theorem claim_C1 (m : Matrix) (hw : m.wf) (hs : m.cols = m.rows + 1)
    (hrU : m.rows < USIZE) :
    (∀ e, m.clone.forward_phase = .error e →
        e = CalculationError.new .UnableToCalculate ∧
        m.gaussian_elimination = .error (CalculationError.new .UnableToCalculate)) ∧
    (∀ m₁ e, m.clone.forward_phase = .ok m₁ → m₁.backward_phase = .error e →
        e = CalculationError.new .UnableToCalculate ∧
        m.gaussian_elimination = .error (CalculationError.new .UnableToCalculate)) ∧
    (2 ≤ m.rows → m.get 0 0 = 0 →
        m.gaussian_elimination = .error (CalculationError.new .UnableToCalculate)) := by
  have hU : USIZE = 18446744073709551616 := by norm_num [USIZE]
  have hg : (m.cols + (USIZE - 1)) % USIZE = m.rows := by
    rw [hs]
    have h1 : m.rows + 1 + (USIZE - 1) = m.rows + USIZE := by omega
    rw [h1, Nat.add_mod_right, Nat.mod_eq_of_lt hrU]
  have hclone : m.clone = m := Matrix.clone_eq_self m hw
  refine ⟨?_, ?_, ?_⟩
  · intro e he
    have hUTC := Matrix.forward_phase_error_elim _ _ he
    subst hUTC
    exact ⟨rfl, Matrix.gaussian_elimination_forward_error m _ hg he⟩
  · intro m₁ e h1 h2
    have hUTC := Matrix.backward_phase_error_elim _ _ h2
    subst hUTC
    exact ⟨rfl, Matrix.gaussian_elimination_backward_error m m₁ _ hg h1 h2⟩
  · intro h2 h0
    have hfwd : m.forward_phase = .error (CalculationError.new .UnableToCalculate) := by
      unfold Matrix.forward_phase
      obtain ⟨k, hk⟩ : ∃ k, m.rows - 1 = k + 1 := ⟨m.rows - 2, by omega⟩
      rw [List.range_eq_range', hk, List.range'_succ]
      apply Matrix.foldlM_error_head
      show (List.range' 0 (k + 1 - 0)).foldlM (fun x j => x.echelon 0 j) m = _
      rw [show k + 1 - 0 = k + 1 from rfl, List.range'_succ]
      apply Matrix.foldlM_error_head
      exact Matrix.echelon_eq_error m 0 0 h0
    exact Matrix.gaussian_elimination_forward_error m _ hg (by rw [hclone]; exact hfwd)

/-- C1 (witness): the amended claim applied concretely to both phases: the
2×3 system `[[1, 1, 2], [1, 1, 2]]` passes phase 1 and hits a zero pivot in
phase 2, and the 2×3 system `[[0, 0, 1], [1, 1, 1]]` has `[0][0] = 0`; both
calls fail with `UnableToCalculate`. -/
theorem claim_C1_witness :
    (Matrix.mk [[1, 1, 2], [1, 1, 2]] 2 3).gaussian_elimination
        = .error (CalculationError.new .UnableToCalculate) ∧
    (Matrix.mk [[0, 0, 1], [1, 1, 1]] 2 3).gaussian_elimination
        = .error (CalculationError.new .UnableToCalculate) :=
  ⟨((claim_C1 (Matrix.mk [[1, 1, 2], [1, 1, 2]] 2 3) (by decide) rfl
        (by norm_num [USIZE])).2.1
      (Matrix.mk [[1, 1, 2], [0, 0, 0]] 2 3) (CalculationError.new .UnableToCalculate)
      (by rw [evalV_clone]; exact evalV_fwd) evalV_bwd_err).2,
   (claim_C1 (Matrix.mk [[0, 0, 1], [1, 1, 1]] 2 3) (by decide) rfl
        (by norm_num [USIZE])).2.2
      (by norm_num) (by norm_num [Matrix.get])⟩

/-- C2: for every input matrix with `cols ≠ rows + 1` (with both dimensions
representable in `usize`), `gaussian_elimination` fails with `IncorrectSize`;
the guard runs before any elimination step or mutation. -/
theorem claim_C2 (m : Matrix) (hshape : m.cols ≠ m.rows + 1)
    (hcU : m.cols < USIZE) (hrU : m.rows < USIZE - 1) :
    m.gaussian_elimination = .error (CalculationError.new .IncorrectSize) := by
  apply Matrix.gaussian_elimination_guard_error
  have hU : USIZE = 18446744073709551616 := by norm_num [USIZE]
  rw [hU] at hcU hrU ⊢
  omega

/-- C2 (witness): the claim applied to the square 2×2 matrix
`[[1, 2], [3, 4]]`, whose shape is not `n × (n+1)`. -/
theorem claim_C2_witness :
    (Matrix.mk [[1, 2], [3, 4]] 2 2).gaussian_elimination
      = .error (CalculationError.new .IncorrectSize) :=
  claim_C2 (Matrix.mk [[1, 2], [3, 4]] 2 2) (by norm_num)
    (by norm_num [USIZE]) (by norm_num [USIZE])

/-- C3 (counterexample): the claim that `calculate_right` produces an
`rows(self) × 1` matrix is false at the 1×3 matrix `[[1, 2, 3]]` with the 1×1
column `[[5]]` (all indices in range): the source allocates `cols - 1 = 2`
rows, not `rows = 1`. -/
theorem claim_C3_counterexample :
    (Matrix.mk [[1, 2, 3]] 1 3).wf ∧ (Matrix.mk [[5]] 1 1).wf ∧
    (Matrix.mk [[5]] 1 1).cols = 1 ∧
    (Matrix.mk [[1, 2, 3]] 1 3).calculate_right_in_bounds (Matrix.mk [[5]] 1 1) ∧
    ((Matrix.mk [[1, 2, 3]] 1 3).calculate_right (Matrix.mk [[5]] 1 1)).rows
      ≠ (Matrix.mk [[1, 2, 3]] 1 3).rows := by
  refine ⟨by decide, by decide, rfl, by decide, ?_⟩
  rw [(Matrix.calculate_right_shape (Matrix.mk [[1, 2, 3]] 1 3) (Matrix.mk [[5]] 1 1)).1]
  decide

/-- C3 (amended): for every well-formed matrix `self` and well-formed column
matrix `rootsColumn` with in-range indices (`rootsColumn.rows ≤ self.cols`,
`self.rows ≤ self.cols - 1`), `calculate_right` produces a
`(self.cols - 1) × 1` column matrix whose entry at each row `i < self.rows`
equals `Σ_{k < rootsColumn.rows} rootsColumn[k][0] * self[i][k]`, with the
remaining rows zero.  (When `cols = rows + 1` this is the claimed
`rows × 1` shape.) -/
theorem claim_C3 (m cr : Matrix) (hw : m.wf) (hwc : cr.wf) (hc1 : cr.cols = 1)
    (hr : cr.rows ≤ m.cols) (hb : m.rows ≤ m.cols - 1) :
    (m.calculate_right cr).rows = m.cols - 1 ∧ (m.calculate_right cr).cols = 1 ∧
    (∀ i < m.rows, (m.calculate_right cr).get i 0
      = ∑ k ∈ Finset.range cr.rows, cr.get k 0 * m.get i k) ∧
    (∀ i, m.rows ≤ i → (m.calculate_right cr).get i 0 = 0) := by
  refine ⟨(Matrix.calculate_right_shape m cr).1, (Matrix.calculate_right_shape m cr).2.1,
    ?_, ?_⟩
  · intro i hi
    rw [Matrix.get_calculate_right m cr hb, if_pos ⟨hi, rfl⟩]
  · intro i hi
    rw [Matrix.get_calculate_right m cr hb, if_neg (fun hx => by omega)]

/-- C3 (witness): the amended claim applied to the 2×3 matrix
`[[1, 0, 2], [0, 1, 3]]` and the 2×1 column `[[4], [5]]`. -/
theorem claim_C3_witness :
    ((Matrix.mk [[1, 0, 2], [0, 1, 3]] 2 3).calculate_right
        (Matrix.mk [[4], [5]] 2 1)).rows = 2 ∧
    ((Matrix.mk [[1, 0, 2], [0, 1, 3]] 2 3).calculate_right
        (Matrix.mk [[4], [5]] 2 1)).cols = 1 ∧
    (∀ i < 2, ((Matrix.mk [[1, 0, 2], [0, 1, 3]] 2 3).calculate_right
        (Matrix.mk [[4], [5]] 2 1)).get i 0
      = ∑ k ∈ Finset.range 2,
          (Matrix.mk [[4], [5]] 2 1).get k 0
            * (Matrix.mk [[1, 0, 2], [0, 1, 3]] 2 3).get i k) ∧
    (∀ i, 2 ≤ i → ((Matrix.mk [[1, 0, 2], [0, 1, 3]] 2 3).calculate_right
        (Matrix.mk [[4], [5]] 2 1)).get i 0 = 0) :=
  claim_C3 (Matrix.mk [[1, 0, 2], [0, 1, 3]] 2 3) (Matrix.mk [[4], [5]] 2 1)
    (by decide) (by decide) rfl (by norm_num) (by norm_num)

/-- C4: for every well-formed augmented matrix with `cols = rows + 1` on which
the forward-elimination phase completes without error on the working clone, the
working matrix immediately after phase 1 is upper-triangular in its first
`rows` columns: every entry strictly below the main diagonal is zero (exact
arithmetic). -/
theorem claim_C4 (m w : Matrix) (hw : m.wf) (hs : m.cols = m.rows + 1)
    (h : m.clone.forward_phase = .ok w) :
    ∀ r < m.rows, ∀ c < r, w.get r c = 0 := by
  rw [Matrix.clone_eq_self m hw] at h
  have hfp := Matrix.forward_phase_ok m w hw hs h
  intro r hr c hc
  exact hfp.2.2.2.1 c (by omega) r hc

/-- C4 (witness): the claim applied to the 2×3 matrix
`[[1, 0, 2], [0, 1, 3]]`, whose forward phase succeeds and leaves the matrix
unchanged (already upper-triangular). -/
theorem claim_C4_witness :
    (Matrix.mk [[1, 0, 2], [0, 1, 3]] 2 3).get 1 0 = 0 :=
  claim_C4 (Matrix.mk [[1, 0, 2], [0, 1, 3]] 2 3)
    (Matrix.mk [[1, 0, 2], [0, 1, 3]] 2 3) (by decide) rfl
    (by rw [evalW_clone]; exact evalW_fwd) 1 (by norm_num) 0 (by norm_num)

/-- C5: on every successful `gaussian_elimination` call on a well-formed
`n × (n+1)` matrix, `result` and `epsilon` are both `n × 1` column matrices and
`epsilon` equals, entrywise, the absolute value of
`get_rhs(original) - calculate_right(original, result)`, computed against the
original unmodified input matrix. -/
theorem claim_C5 (m : Matrix) (res : EliminationResult) (hw : m.wf)
    (hs : m.cols = m.rows + 1) (h : m.gaussian_elimination = .ok res) :
    res.result.rows = m.rows ∧ res.result.cols = 1 ∧
    res.epsilon.rows = m.rows ∧ res.epsilon.cols = 1 ∧
    ∀ i < m.rows, res.epsilon.get i 0
      = |m.get_rhs.get i 0 - (m.calculate_right res.result).get i 0| := by
  obtain ⟨hg, m₁, m₂, h1, h2, hres⟩ := Matrix.gaussian_elimination_ok_elim m res h
  subst hres
  refine ⟨(Matrix.extract_result_shape m m₂).1, (Matrix.extract_result_shape m m₂).2.1,
    (Matrix.residual_shape m _).1, (Matrix.residual_shape m _).2.1, ?_⟩
  intro i hi
  exact Matrix.get_residual m _ i hi

/-- C5 (witness): the claim applied to the 2×3 system
`[[1, 0, 2], [0, 1, 3]]`, which solves to `[[2], [3]]` with residual
`[[0], [0]]`. -/
theorem claim_C5_witness :
    (EliminationResult.mk (Matrix.mk [[2], [3]] 2 1) (Matrix.mk [[0], [0]] 2 1)).result.rows
        = (Matrix.mk [[1, 0, 2], [0, 1, 3]] 2 3).rows ∧
    (EliminationResult.mk (Matrix.mk [[2], [3]] 2 1) (Matrix.mk [[0], [0]] 2 1)).result.cols = 1 ∧
    (EliminationResult.mk (Matrix.mk [[2], [3]] 2 1) (Matrix.mk [[0], [0]] 2 1)).epsilon.rows
        = (Matrix.mk [[1, 0, 2], [0, 1, 3]] 2 3).rows ∧
    (EliminationResult.mk (Matrix.mk [[2], [3]] 2 1) (Matrix.mk [[0], [0]] 2 1)).epsilon.cols = 1 ∧
    ∀ i < (Matrix.mk [[1, 0, 2], [0, 1, 3]] 2 3).rows,
      (EliminationResult.mk (Matrix.mk [[2], [3]] 2 1) (Matrix.mk [[0], [0]] 2 1)).epsilon.get i 0
        = |(Matrix.mk [[1, 0, 2], [0, 1, 3]] 2 3).get_rhs.get i 0
            - ((Matrix.mk [[1, 0, 2], [0, 1, 3]] 2 3).calculate_right
                (EliminationResult.mk (Matrix.mk [[2], [3]] 2 1)
                  (Matrix.mk [[0], [0]] 2 1)).result).get i 0| :=
  claim_C5 (Matrix.mk [[1, 0, 2], [0, 1, 3]] 2 3)
    (EliminationResult.mk (Matrix.mk [[2], [3]] 2 1) (Matrix.mk [[0], [0]] 2 1))
    (by decide) rfl evalW_gauss

/-- C6: `gaussian_elimination` never mutates the caller's matrix: fed through
the state-passing call wrapper, the receiver comes back unchanged (in the
source every mutation targets `cloned_matrix`), and the clone it works on is a
deep value-copy of the input. -/
theorem claim_C6 (m : Matrix) (hw : m.wf) :
    m.gaussian_elimination_call.1 = m ∧ m.clone = m :=
  ⟨rfl, Matrix.clone_eq_self m hw⟩

/-- C6 (witness): the claim applied to the 2×3 matrix `[[1, 0, 2], [0, 1, 3]]`. -/
theorem claim_C6_witness :
    (Matrix.mk [[1, 0, 2], [0, 1, 3]] 2 3).gaussian_elimination_call.1
        = Matrix.mk [[1, 0, 2], [0, 1, 3]] 2 3 ∧
    (Matrix.mk [[1, 0, 2], [0, 1, 3]] 2 3).clone = Matrix.mk [[1, 0, 2], [0, 1, 3]] 2 3 :=
  claim_C6 (Matrix.mk [[1, 0, 2], [0, 1, 3]] 2 3) (by decide)

/-- C7: for every well-formed matrix with `cols ≥ 1`, `get_rhs` returns an
`rows × 1` column matrix whose `i`-th entry is the element at `[i][cols-1]`;
being a pure function of the unmodified matrix, calling it twice yields equal
column vectors. -/
theorem claim_C7 (m : Matrix) (hw : m.wf) (hc : 1 ≤ m.cols) :
    m.get_rhs.rows = m.rows ∧ m.get_rhs.cols = 1 ∧
    (∀ i < m.rows, m.get_rhs.get i 0 = m.get i (m.cols - 1)) ∧
    m.get_rhs = m.get_rhs := by
  refine ⟨(Matrix.get_rhs_shape m).1, (Matrix.get_rhs_shape m).2.1, ?_, rfl⟩
  intro i hi
  rw [Matrix.get_get_rhs, if_pos ⟨hi, rfl⟩]

/-- C7 (witness): the claim applied to the 2×3 matrix `[[1, 0, 2], [0, 1, 3]]`. -/
theorem claim_C7_witness :
    (Matrix.mk [[1, 0, 2], [0, 1, 3]] 2 3).get_rhs.rows = 2 ∧
    (Matrix.mk [[1, 0, 2], [0, 1, 3]] 2 3).get_rhs.cols = 1 ∧
    (∀ i < 2, (Matrix.mk [[1, 0, 2], [0, 1, 3]] 2 3).get_rhs.get i 0
      = (Matrix.mk [[1, 0, 2], [0, 1, 3]] 2 3).get i 2) ∧
    (Matrix.mk [[1, 0, 2], [0, 1, 3]] 2 3).get_rhs
      = (Matrix.mk [[1, 0, 2], [0, 1, 3]] 2 3).get_rhs :=
  claim_C7 (Matrix.mk [[1, 0, 2], [0, 1, 3]] 2 3) (by decide) (by norm_num)

/-- C8: for every pair of well-formed matrices of identical shape, `A -= B`
replaces each entry `A[i][j]` by `A[i][j] - B[i][j]`, leaves the shape of `A`
unchanged, and the fatal shape-mismatch (panic) branch is unreachable. -/
theorem claim_C8 (a b : Matrix) (hwa : a.wf) (hwb : b.wf) (hr : a.rows = b.rows)
    (hc : a.cols = b.cols) :
    ¬ a.sub_assign_mismatch b ∧
    (a.sub_assign b).rows = a.rows ∧ (a.sub_assign b).cols = a.cols ∧
    ∀ i < a.rows, ∀ j < a.cols, (a.sub_assign b).get i j = a.get i j - b.get i j := by
  refine ⟨fun h => h.elim (fun hh => hh hc) (fun hh => hh hr),
    (Matrix.sub_assign_shape a b).1, (Matrix.sub_assign_shape a b).2.1, ?_⟩
  intro i hi j hj
  rw [Matrix.get_sub_assign a b hwa, if_pos ⟨hi, hj⟩]

/-- C8 (witness): the claim applied to the 2×2 matrices `[[1, 2], [3, 4]]` and
`[[5, 6], [7, 8]]`. -/
theorem claim_C8_witness :
    ¬ (Matrix.mk [[1, 2], [3, 4]] 2 2).sub_assign_mismatch
        (Matrix.mk [[5, 6], [7, 8]] 2 2) ∧
    ((Matrix.mk [[1, 2], [3, 4]] 2 2).sub_assign
        (Matrix.mk [[5, 6], [7, 8]] 2 2)).rows = 2 ∧
    ((Matrix.mk [[1, 2], [3, 4]] 2 2).sub_assign
        (Matrix.mk [[5, 6], [7, 8]] 2 2)).cols = 2 ∧
    ∀ i < 2, ∀ j < 2,
      ((Matrix.mk [[1, 2], [3, 4]] 2 2).sub_assign
          (Matrix.mk [[5, 6], [7, 8]] 2 2)).get i j
        = (Matrix.mk [[1, 2], [3, 4]] 2 2).get i j
            - (Matrix.mk [[5, 6], [7, 8]] 2 2).get i j :=
  claim_C8 (Matrix.mk [[1, 2], [3, 4]] 2 2) (Matrix.mk [[5, 6], [7, 8]] 2 2)
    (by decide) (by decide) rfl rfl

/-- C9: under exact rational arithmetic, for every well-formed augmented matrix
with `rows ≥ 2` and `cols = rows + 1` whose forward and backward phases both
complete without `UnableToCalculate`, every diagonal entry of the resulting
working matrix — the divisors of the extraction step
`result[i][0] = matrix[i][rows] / matrix[i][i]` — is nonzero. -/
theorem claim_C9 (m m₁ m₂ : Matrix) (hw : m.wf) (hs : m.cols = m.rows + 1)
    (h2 : 2 ≤ m.rows) (h1 : m.clone.forward_phase = .ok m₁)
    (hbk : m₁.backward_phase = .ok m₂) :
    ∀ i < m.rows, m₂.get i i ≠ 0 := by
  rw [Matrix.clone_eq_self m hw] at h1
  have hfp := Matrix.forward_phase_ok m m₁ hw hs h1
  have hlz : m₁.lower_zero :=
    Matrix.lower_zero_of_fwd_inv m₁ m.rows hfp.1 hfp.2.1 hfp.2.2.2
  have hbp := Matrix.backward_phase_ok m₁ m₂ hfp.1
    (by rw [hfp.2.1, hfp.2.2.1, hs]) (by omega) hlz hbk
  intro i hi
  rw [hbp.2.2.2.2.1 i]
  by_cases hlast : i = m.rows - 1
  · subst hlast
    have hlp := hbp.2.2.2.2.2 (by rw [hfp.2.1]; exact h2)
    rwa [hfp.2.1] at hlp
  · exact hfp.2.2.2.2 i (by omega)

/-- C9 (witness): the claim applied to the 2×3 system
`[[1, 0, 2], [0, 1, 3]]`, whose phases succeed leaving the matrix unchanged
with diagonal `1, 1`. -/
theorem claim_C9_witness :
    (Matrix.mk [[1, 0, 2], [0, 1, 3]] 2 3).get 0 0 ≠ 0 :=
  claim_C9 (Matrix.mk [[1, 0, 2], [0, 1, 3]] 2 3)
    (Matrix.mk [[1, 0, 2], [0, 1, 3]] 2 3) (Matrix.mk [[1, 0, 2], [0, 1, 3]] 2 3)
    (by decide) rfl (by norm_num) (by rw [evalW_clone]; exact evalW_fwd) evalW_bwd
    0 (by norm_num)

/-- C10 (counterexample): the claim that `calculate_right` is in-bounds *only
under* `rootsColumn.rows ≤ self.cols ∧ self.rows ≤ self.cols - 1` is false at
the empty 0×5 matrix with a 7×1 column: no loop iteration executes, so every
access is (vacuously) in range, while the stated precondition fails
(`7 ≤ 5` is false). -/
theorem claim_C10_counterexample :
    (Matrix.mk ([] : List (List ℚ)) 0 5).wf ∧
    (Matrix.mk [[0], [0], [0], [0], [0], [0], [0]] 7 1).wf ∧
    (Matrix.mk ([] : List (List ℚ)) 0 5).calculate_right_in_bounds
      (Matrix.mk [[0], [0], [0], [0], [0], [0], [0]] 7 1) ∧
    ¬ ((Matrix.mk [[0], [0], [0], [0], [0], [0], [0]] 7 1).rows
          ≤ (Matrix.mk ([] : List (List ℚ)) 0 5).cols ∧
        (Matrix.mk ([] : List (List ℚ)) 0 5).rows
          ≤ (Matrix.mk ([] : List (List ℚ)) 0 5).cols - 1) := by
  decide

/-- C10 (amended): for matrices with at least one row, `calculate_right` is
in-bounds only under the precondition `rootsColumn.rows ≤ self.cols` and
`self.rows ≤ self.cols - 1`: whenever every access of the loops is in range,
the precondition holds.  (For `self.rows = 0` no access executes, so the
precondition is not forced.) -/
theorem claim_C10 (m cr : Matrix) (hm : 1 ≤ m.rows)
    (h : m.calculate_right_in_bounds cr) :
    cr.rows ≤ m.cols ∧ m.rows ≤ m.cols - 1 := by
  constructor
  · rcases Nat.eq_zero_or_pos cr.rows with hz | hp
    · omega
    · have hk := (h 0 hm).1 (cr.rows - 1) (by omega)
      omega
  · by_contra hcon
    push_neg at hcon
    have hk := (h (m.cols - 1) (by omega)).2
    omega

/-- C10 (witness): the amended claim applied to the 1×2 matrix `[[1, 2]]` and
the 1×1 column `[[3]]`, for which all accesses are in range. -/
theorem claim_C10_witness :
    (Matrix.mk [[3]] 1 1).rows ≤ (Matrix.mk [[1, 2]] 1 2).cols ∧
    (Matrix.mk [[1, 2]] 1 2).rows ≤ (Matrix.mk [[1, 2]] 1 2).cols - 1 :=
  claim_C10 (Matrix.mk [[1, 2]] 1 2) (Matrix.mk [[3]] 1 1) (by norm_num) (by decide)

end Kryl07
